import Mathlib

/-!
# SecureBox (`src/models.py`) — shallow embedding and verification

This file embeds the cryptographic data model of the SecureBox vault
(`SymmetricKey`, `Container`, `Vault` in `src/models.py`) in Lean 4 and
settles the frozen claims about it.

Modelling conventions, chosen once and used throughout:

* A Python `str` is a sequence of Unicode code points in `[0, 0x110000)`,
  lone surrogates included (CPython allows them).  We model it as
  `PyStr := List Nat`; well-formedness (`PyWf`) is stated where a theorem
  quantifies over all Python strings.  A Python `bytes` is `List Nat`
  with entries below 256.
* Library calls at the boundary of the repository are modelled, not
  re-implemented, with their interface behaviour made explicit:
  - `hashlib.pbkdf2_hmac` (key derivation) is an ideal key-derivation
    function: injective in `(password, salt)`.  We model the derived key
    as the pair itself (`AESKey`), after the UTF-8 encodability guard
    that `password.encode` performs.
  - `hmac.new(..., hashlib.sha256).hexdigest()` is an ideal MAC:
    injective in `(key, message)`.  A container MAC value is modelled as
    the pair `MacVal`.  The vault-level MAC message is the concatenation
    of fixed-length (64 hex characters) container-MAC strings, which is
    in bijection with the list of those strings, so it is modelled as a
    `List MacVal` (`VaultMacVal`).
  - `AES.new(key, AES.MODE_CBC, iv)` with `pycryptodome`: the AES block
    permutation is abstracted as a key-dependent bijection on bytes
    (XOR with a key fingerprint); the CBC chaining, the PKCS#7
    `pad`/`unpad`, and the multiple-of-16 length checks are modelled
    exactly.  No claim depends on the cryptographic strength of the
    block permutation, only on it being a key-dependent bijection and on
    the CBC chaining structure.
  - `json.dumps({"name": .., "data": ..})` / `json.loads` (CPython with
    default options, `ensure_ascii=True`) are modelled faithfully for
    objects whose values are strings: exact escaping rules, `\uXXXX`
    escapes with surrogate-pair recombination on parse, strict rejection
    of raw control characters, last-wins duplicate keys.  JSON documents
    whose values are not strings are rejected by the model parser where
    CPython would parse them and fail later with an uncategorised
    exception; both behaviours reach the same catch-all handlers in the
    repository code and no claim distinguishes them.  The model's
    `\uXXXX` parser requires four strict hexadecimal digits (CPython's
    `int(esc, 16)` additionally tolerates exotic forms such as
    underscores or a leading `+`, which no claim touches).
  - `str.encode('utf-8')` / `bytes.decode('utf-8')` are implemented
    exactly (strict errors: overlong forms, surrogates, out-of-range and
    truncated sequences all rejected).
  - `int(id)` / `str(id)` are modelled for the canonical decimal forms
    (optional sign, digits); CPython's `int` additionally tolerates
    surrounding whitespace and underscores, which no claim touches.
  - `Random.new().read(n)` is modelled by an explicit entropy stream
    `Entropy := Nat → Nat` and a read position, threaded through the
    operations that draw randomness.
  - `hmac.compare_digest` is equality; its timing behaviour is outside a
    functional model.
* File I/O and the top-level `json.load` of the vault document are
  outside the model: `Vault.load_from_file` and `Vault.fetch_container`
  are modelled from the point where the document has parsed into its
  JSON structure (`VaultDoc`); failures before that point raise
  `LoadVaultError` in the code and every claim about these functions
  concerns the later stages.
* Python exceptions become an explicit `PyError` sum; `try/except`
  blocks become matches on `Except`.
* The `SymmetricKey` memoisation cache (`aeskey`/`prev_password`) is not
  modelled: the code never mutates a key's salt in place, so the cache
  is pure memoisation with no observable effect on any claim.
* The cloud-backup collaborator (`GDrive`) is outside the model; no
  claim mentions it.
-/

set_option maxRecDepth 2000

/-- A Python `str`: a list of Unicode code points (lone surrogates allowed,
as in CPython). -/
abbrev PyStr : Type := List Nat

def PyWf (s : PyStr) : Prop := ∀ n ∈ s, n < 0x110000

def isSurrogate (n : Nat) : Prop := 0xD800 ≤ n ∧ n < 0xE000

instance (n : Nat) : Decidable (isSurrogate n) :=
  inferInstanceAs (Decidable (0xD800 ≤ n ∧ n < 0xE000))

def NoSurrogates (s : PyStr) : Prop := ∀ n ∈ s, ¬ isSurrogate n

instance (s : PyStr) : Decidable (PyWf s) :=
  inferInstanceAs (Decidable (∀ n ∈ s, n < 0x110000))

instance (s : PyStr) : Decidable (NoSurrogates s) :=
  inferInstanceAs (Decidable (∀ n ∈ s, ¬ isSurrogate n))

/-- Embed a Lean string literal as a `PyStr` (used for fixed ASCII text such
as error messages and JSON keys). -/
def pyOfString (s : String) : PyStr := s.toList.map Char.toNat

/-- A UTF-8 continuation byte. -/
def isCont (c : Nat) : Prop := 0x80 ≤ c ∧ c < 0xC0

instance (c : Nat) : Decidable (isCont c) :=
  inferInstanceAs (Decidable (0x80 ≤ c ∧ c < 0xC0))

def utf8Dec2 (b : Nat) : List Nat → Option (Nat × List Nat)
  | c1 :: r =>
    if isCont c1 then some ((b - 0xC0) * 64 + (c1 - 0x80), r) else none
  | [] => none

def utf8Dec3 (b : Nat) : List Nat → Option (Nat × List Nat)
  | c1 :: c2 :: r =>
    if isCont c1 ∧ isCont c2 then
      let v := (b - 0xE0) * 4096 + (c1 - 0x80) * 64 + (c2 - 0x80)
      if 0x800 ≤ v ∧ ¬ isSurrogate v then some (v, r) else none
    else none
  | _ => none

def utf8Dec4 (b : Nat) : List Nat → Option (Nat × List Nat)
  | c1 :: c2 :: c3 :: r =>
    if isCont c1 ∧ isCont c2 ∧ isCont c3 then
      let v := (b - 0xF0) * 262144 + (c1 - 0x80) * 4096 +
        (c2 - 0x80) * 64 + (c3 - 0x80)
      if 0x10000 ≤ v ∧ v < 0x110000 then some (v, r) else none
    else none
  | _ => none

/-- Decode one UTF-8-encoded code point from the front (strict). -/
def utf8DecStep : List Nat → Option (Nat × List Nat)
  | [] => none
  | b :: r =>
    if b < 0x80 then some (b, r)
    else if b < 0xC2 then none
    else if b < 0xE0 then utf8Dec2 b r
    else if b < 0xF0 then utf8Dec3 b r
    else if b < 0xF5 then utf8Dec4 b r
    else none

theorem utf8DecStep_shrinks (l : List Nat) (v : Nat) (r : List Nat)
    (h : utf8DecStep l = some (v, r)) : r.length < l.length := by
  match l with
  | [] => simp [utf8DecStep] at h
  | b :: rest =>
    simp only [utf8DecStep] at h
    split_ifs at h
    · cases h; simp
    · match rest with
      | [] => simp [utf8Dec2] at h
      | c1 :: r1 =>
        simp only [utf8Dec2] at h
        split_ifs at h
        cases h; simp; omega
    · match rest with
      | [] => simp [utf8Dec3] at h
      | [c1] => simp [utf8Dec3] at h
      | c1 :: c2 :: r1 =>
        simp only [utf8Dec3] at h
        split_ifs at h
        cases h; simp; omega
    · match rest with
      | [] => simp [utf8Dec4] at h
      | [c1] => simp [utf8Dec4] at h
      | [c1, c2] => simp [utf8Dec4] at h
      | c1 :: c2 :: c3 :: r1 =>
        simp only [utf8Dec4] at h
        split_ifs at h
        cases h; simp; omega

def utf8DecAux : Nat → List Nat → Option PyStr
  | _, [] => some []
  | 0, _ :: _ => none
  | f + 1, b :: rest =>
    match utf8DecStep (b :: rest) with
    | none => none
    | some (v, r) => (utf8DecAux f r).map (fun s => v :: s)

/-- `bytes.decode('utf-8')`, strict. -/
def utf8Dec (l : List Nat) : Option PyStr := utf8DecAux l.length l

theorem utf8DecAux_fuel (f : Nat) (l : List Nat) (h : l.length ≤ f) :
    utf8DecAux f l = utf8Dec l := by
  unfold utf8Dec
  induction f using Nat.strong_induction_on generalizing l with
  | _ f ih =>
    match f, l with
    | _, [] => simp [utf8DecAux]
    | 0, b :: rest => simp at h
    | f + 1, b :: rest =>
      have e1 : utf8DecAux (f + 1) (b :: rest) =
          match utf8DecStep (b :: rest) with
          | none => none
          | some (v, r) => (utf8DecAux f r).map (fun s => v :: s) := rfl
      have e2 : utf8DecAux (rest.length + 1) (b :: rest) =
          match utf8DecStep (b :: rest) with
          | none => none
          | some (v, r) => (utf8DecAux rest.length r).map (fun s => v :: s) := rfl
      rw [List.length_cons, e1, e2]
      match hs : utf8DecStep (b :: rest) with
      | none => rfl
      | some (v, r) =>
        have hr := utf8DecStep_shrinks _ _ _ hs
        simp only [List.length_cons] at h hr
        dsimp only
        rw [ih f (by omega) r (by omega), ih rest.length (by omega) r (by omega)]


def utf8EncChar (n : Nat) : List Nat :=
  if n < 0x80 then [n]
  else if n < 0x800 then [0xC0 + n / 64, 0x80 + n % 64]
  else if n < 0x10000 then
    [0xE0 + n / 4096, 0x80 + (n / 64) % 64, 0x80 + n % 64]
  else
    [0xF0 + n / 262144, 0x80 + (n / 4096) % 64, 0x80 + (n / 64) % 64,
      0x80 + n % 64]

def utf8Enc : PyStr → Option (List Nat)
  | [] => some []
  | n :: rest =>
    if n < 0x110000 ∧ ¬ isSurrogate n then
      (utf8Enc rest).map (fun bs => utf8EncChar n ++ bs)
    else
      none

theorem utf8DecStep_enc (n : Nat) (bs : List Nat)
    (hlt : n < 0x110000) (hs : ¬ isSurrogate n) :
    utf8DecStep (utf8EncChar n ++ bs) = some (n, bs) := by
  unfold utf8EncChar
  unfold isSurrogate at hs
  by_cases h1 : n < 0x80
  · simp only [if_pos h1, List.cons_append, List.nil_append, utf8DecStep,
      if_pos h1]
  · simp only [if_neg h1]
    by_cases h2 : n < 0x800
    · simp only [if_pos h2, List.cons_append, List.nil_append, utf8DecStep]
      rw [if_neg (by omega), if_neg (by omega), if_pos (by omega)]
      simp only [utf8Dec2]
      rw [if_pos (by constructor <;> omega)]
      congr 2
      omega
    · simp only [if_neg h2]
      by_cases h3 : n < 0x10000
      · simp only [if_pos h3, List.cons_append, List.nil_append, utf8DecStep]
        rw [if_neg (by omega), if_neg (by omega), if_neg (by omega),
          if_pos (by omega)]
        simp only [utf8Dec3]
        rw [if_pos (by refine ⟨⟨by omega, by omega⟩, by omega, by omega⟩)]
        have hv : (0xE0 + n / 4096 - 0xE0) * 4096 +
            (0x80 + n / 64 % 64 - 0x80) * 64 + (0x80 + n % 64 - 0x80) = n := by
          omega
        rw [hv]
        rw [if_pos (by unfold isSurrogate; omega)]
      · simp only [if_neg h3, List.cons_append, List.nil_append, utf8DecStep]
        rw [if_neg (by omega), if_neg (by omega), if_neg (by omega),
          if_neg (by omega), if_pos (by omega)]
        simp only [utf8Dec4]
        rw [if_pos (by refine ⟨⟨by omega, by omega⟩, ⟨by omega, by omega⟩,
          by omega, by omega⟩)]
        have hv : (0xF0 + n / 262144 - 0xF0) * 262144 +
            (0x80 + n / 4096 % 64 - 0x80) * 4096 +
            (0x80 + n / 64 % 64 - 0x80) * 64 + (0x80 + n % 64 - 0x80) = n := by
          omega
        rw [hv]
        rw [if_pos (by omega)]

theorem utf8DecStep_sound (l : List Nat) (v : Nat) (r : List Nat)
    (h : utf8DecStep l = some (v, r)) :
    v < 0x110000 ∧ ¬ isSurrogate v ∧ utf8EncChar v ++ r = l := by
  match l with
  | [] => simp [utf8DecStep] at h
  | b :: rest =>
    simp only [utf8DecStep] at h
    split_ifs at h with g1 g2 g3 g4 g5
    · cases h
      refine ⟨by omega, by unfold isSurrogate; omega, ?_⟩
      simp [utf8EncChar, if_pos g1]
    · match rest with
      | [] => simp [utf8Dec2] at h
      | c1 :: r1 =>
        simp only [utf8Dec2] at h
        split_ifs at h with gc
        cases h
        unfold isCont at gc
        have hge : ¬ ((b - 0xC0) * 64 + (c1 - 0x80) < 0x80) := by omega
        have hlt2 : (b - 0xC0) * 64 + (c1 - 0x80) < 0x800 := by omega
        refine ⟨by omega, by unfold isSurrogate; omega, ?_⟩
        simp only [utf8EncChar, if_neg hge, if_pos hlt2,
          List.cons_append, List.nil_append]
        congr 2 <;> omega
    · match rest with
      | [] => simp [utf8Dec3] at h
      | [c1] => simp [utf8Dec3] at h
      | c1 :: c2 :: r1 =>
        simp only [utf8Dec3] at h
        split_ifs at h with gc gv
        cases h
        unfold isCont at gc
        unfold isSurrogate at gv
        have hg1 : ¬ ((b - 0xE0) * 4096 + (c1 - 0x80) * 64 + (c2 - 0x80) <
            0x80) := by omega
        have hg2 : ¬ ((b - 0xE0) * 4096 + (c1 - 0x80) * 64 + (c2 - 0x80) <
            0x800) := by omega
        have hlt3 : (b - 0xE0) * 4096 + (c1 - 0x80) * 64 + (c2 - 0x80) <
            0x10000 := by omega
        refine ⟨by omega, by unfold isSurrogate; omega, ?_⟩
        simp only [utf8EncChar, if_neg hg1, if_neg hg2,
          if_pos hlt3, List.cons_append, List.nil_append, List.cons.injEq,
          and_true, true_and]
        omega
    · match rest with
      | [] => simp [utf8Dec4] at h
      | [c1] => simp [utf8Dec4] at h
      | [c1, c2] => simp [utf8Dec4] at h
      | c1 :: c2 :: c3 :: r1 =>
        simp only [utf8Dec4] at h
        split_ifs at h with gc gv
        cases h
        unfold isCont at gc
        have hg1 : ¬ ((b - 0xF0) * 262144 + (c1 - 0x80) * 4096 +
            (c2 - 0x80) * 64 + (c3 - 0x80) < 0x80) := by omega
        have hg2 : ¬ ((b - 0xF0) * 262144 + (c1 - 0x80) * 4096 +
            (c2 - 0x80) * 64 + (c3 - 0x80) < 0x800) := by omega
        have hg3 : ¬ ((b - 0xF0) * 262144 + (c1 - 0x80) * 4096 +
            (c2 - 0x80) * 64 + (c3 - 0x80) < 0x10000) := by omega
        refine ⟨by omega, by unfold isSurrogate; omega, ?_⟩
        simp only [utf8EncChar, if_neg hg1, if_neg hg2,
          if_neg hg3, List.cons_append, List.nil_append, List.cons.injEq,
          and_true, true_and]
        omega

theorem utf8Dec_cons (b : Nat) (rest : List Nat) :
    utf8Dec (b :: rest) =
      match utf8DecStep (b :: rest) with
      | none => none
      | some (v, r) => (utf8Dec r).map (fun s => v :: s) := by
  show utf8DecAux (rest.length + 1) (b :: rest) = _
  have e : utf8DecAux (rest.length + 1) (b :: rest) =
      match utf8DecStep (b :: rest) with
      | none => none
      | some (v, r) => (utf8DecAux rest.length r).map (fun s => v :: s) := rfl
  rw [e]
  match hs : utf8DecStep (b :: rest) with
  | none => rfl
  | some (v, r) =>
    have hr := utf8DecStep_shrinks _ _ _ hs
    simp only [List.length_cons] at hr
    dsimp only
    rw [utf8DecAux_fuel rest.length r (by omega)]

theorem utf8Dec_step_some (l : List Nat) (v : Nat) (r : List Nat)
    (h : utf8DecStep l = some (v, r)) :
    utf8Dec l = (utf8Dec r).map (fun s => v :: s) := by
  match l with
  | [] => simp [utf8DecStep] at h
  | b :: rest => rw [utf8Dec_cons, h]

theorem utf8Dec_utf8Enc (s : PyStr) (l : List Nat)
    (h : utf8Enc s = some l) : utf8Dec l = some s := by
  induction s generalizing l with
  | nil =>
    simp only [utf8Enc] at h
    cases h
    rfl
  | cons n rest ih =>
    simp only [utf8Enc] at h
    split_ifs at h with hg
    match he : utf8Enc rest with
    | none => rw [he] at h; simp at h
    | some bs =>
      rw [he] at h
      simp only [Option.map_some'] at h
      cases h
      rw [utf8Dec_step_some _ _ _ (utf8DecStep_enc n bs hg.1 hg.2), ih bs he]
      rfl

theorem utf8Enc_utf8Dec (l : List Nat) (s : PyStr)
    (h : utf8Dec l = some s) : utf8Enc s = some l := by
  have hgen : ∀ (k : Nat) (l : List Nat) (s : PyStr), l.length ≤ k →
      utf8Dec l = some s → utf8Enc s = some l := by
    intro k
    induction k with
    | zero =>
      intro l s hk h
      match l with
      | [] =>
        unfold utf8Dec utf8DecAux at h
        cases h
        rfl
      | b :: r => simp at hk
    | succ k ih =>
      intro l s hk h
      match l with
      | [] =>
        unfold utf8Dec utf8DecAux at h
        cases h
        rfl
      | b :: rest =>
        rw [utf8Dec_cons] at h
        match hs : utf8DecStep (b :: rest) with
        | none => rw [hs] at h; simp at h
        | some (v, r) =>
          rw [hs] at h
          dsimp only at h
          obtain ⟨hv1, hv2, hv3⟩ := utf8DecStep_sound _ _ _ hs
          have hr := utf8DecStep_shrinks _ _ _ hs
          simp only [List.length_cons] at hk hr
          match hd : utf8Dec r with
          | none => rw [hd] at h; simp at h
          | some s2 =>
            rw [hd] at h
            simp only [Option.map_some'] at h
            cases h
            have := ih r s2 (by omega) hd
            simp only [utf8Enc, if_pos (And.intro hv1 hv2), this,
              Option.map_some']
            rw [hv3]

  exact hgen l.length l s (le_refl _) h

theorem utf8Enc_wf (s : PyStr) (l : List Nat) (h : utf8Enc s = some l) :
    PyWf s ∧ NoSurrogates s := by
  induction s generalizing l with
  | nil =>
    constructor
    · intro n hn
      cases hn
    · intro n hn
      cases hn
  | cons n rest ih =>
    simp only [utf8Enc] at h
    split_ifs at h with hg
    match he : utf8Enc rest with
    | none => rw [he] at h; simp at h
    | some bs =>
      obtain ⟨ih1, ih2⟩ := ih bs he
      constructor
      · intro m hm
        rcases List.mem_cons.1 hm with rfl | hm2
        · exact hg.1
        · exact ih1 m hm2
      · intro m hm
        rcases List.mem_cons.1 hm with rfl | hm2
        · exact hg.2
        · exact ih2 m hm2

/-! ## JSON codec: `json.dumps` (`ensure_ascii=True`, default separators) and
`json.loads` restricted to objects with string values (the only shape the
repository produces and reads). -/

/-- Lower-case hexadecimal digit, as produced by CPython's `'%04x'`. -/
def hexDigit (k : Nat) : Nat := if k < 10 then 0x30 + k else 0x57 + k

/-- `'%04x' % n` for `n < 0x10000`. -/
def hex4 (n : Nat) : List Nat :=
  [hexDigit (n / 4096 % 16), hexDigit (n / 256 % 16),
    hexDigit (n / 16 % 16), hexDigit (n % 16)]

/-- CPython `json` escaping of one code point (`ensure_ascii=True`):
`"` and `\` escaped; `\b \t \n \f \r` short escapes; other control
characters and everything outside `0x20..0x7E` as `\uXXXX` (astral code
points as a surrogate pair of escapes). -/
def jsonEscChar (n : Nat) : List Nat :=
  if n = 0x22 then [0x5C, 0x22]
  else if n = 0x5C then [0x5C, 0x5C]
  else if n = 0x08 then [0x5C, 0x62]
  else if n = 0x09 then [0x5C, 0x74]
  else if n = 0x0A then [0x5C, 0x6E]
  else if n = 0x0C then [0x5C, 0x66]
  else if n = 0x0D then [0x5C, 0x72]
  else if n < 0x20 then 0x5C :: 0x75 :: hex4 n
  else if n < 0x7F then [n]
  else if n < 0x10000 then 0x5C :: 0x75 :: hex4 n
  else
    0x5C :: 0x75 :: hex4 (0xD800 + (n - 0x10000) / 1024) ++
      (0x5C :: 0x75 :: hex4 (0xDC00 + (n - 0x10000) % 1024))

/-- A JSON string literal: quote, escaped body, quote. -/
def jsonStrBytes (s : PyStr) : List Nat :=
  0x22 :: ((s.map jsonEscChar).flatten ++ [0x22])

/-- `json.dumps({"name": name, "data": data}).encode('utf-8')` with CPython's
default separators: the serialized record is pure ASCII, so the UTF-8
encoding is the code-point list itself. -/
def dumpsNameData (name data : PyStr) : List Nat :=
  [0x7B] ++ jsonStrBytes (pyOfString "name") ++ [0x3A, 0x20] ++
    jsonStrBytes name ++ [0x2C, 0x20] ++ jsonStrBytes (pyOfString "data") ++
    [0x3A, 0x20] ++ jsonStrBytes data ++ [0x7D]

/-- JSON whitespace (CPython `_w`). -/
def jsonWsChar (c : Nat) : Prop := c = 0x20 ∨ c = 0x09 ∨ c = 0x0A ∨ c = 0x0D

instance (c : Nat) : Decidable (jsonWsChar c) :=
  inferInstanceAs (Decidable (c = 0x20 ∨ c = 0x09 ∨ c = 0x0A ∨ c = 0x0D))

def skipWs : PyStr → PyStr
  | [] => []
  | c :: r => if jsonWsChar c then skipWs r else c :: r

/-- Value of one hexadecimal digit (case-insensitive, as `int(.., 16)`). -/
def hexVal (c : Nat) : Option Nat :=
  if 0x30 ≤ c ∧ c ≤ 0x39 then some (c - 0x30)
  else if 0x61 ≤ c ∧ c ≤ 0x66 then some (c - 0x57)
  else if 0x41 ≤ c ∧ c ≤ 0x46 then some (c - 0x37)
  else none

def hex4Val (a b c d : Nat) : Option Nat :=
  match hexVal a, hexVal b, hexVal c, hexVal d with
  | some va, some vb, some vc, some vd =>
    some (va * 4096 + vb * 256 + vc * 16 + vd)
  | _, _, _, _ => none

/-- One step of CPython's `py_scanstring`. -/
inductive StrTok where
  | close (rest : PyStr)
  | emit (c : Nat) (rest : PyStr)
  | bad
deriving DecidableEq

/-- After a high-surrogate `\uXXXX` escape of value `v`: if the input
continues with a `\u` escape of a low surrogate, combine the pair; a `\u`
escape with invalid hexadecimal digits is an error; anything else emits the
lone high surrogate (CPython behaviour).  `hv` is the parsed value of the
four digits of the second escape. -/
def surrPairTok (v : Nat) (hv : Option Nat) (r2 orig : PyStr) : StrTok :=
  match hv with
  | some v2 =>
    if 0xDC00 ≤ v2 ∧ v2 < 0xE000 then
      .emit (0x10000 + (v - 0xD800) * 1024 + (v2 - 0xDC00)) r2
    else .emit v orig
  | none => .bad

def uniPairTok (v : Nat) (r : PyStr) : StrTok :=
  match r with
  | e1 :: e2 :: a :: b :: c :: d :: r2 =>
    if e1 = 0x5C ∧ e2 = 0x75 then surrPairTok v (hex4Val a b c d) r2 r
    else .emit v r
  | e1 :: e2 :: _ =>
    if e1 = 0x5C ∧ e2 = 0x75 then .bad else .emit v r
  | _ => .emit v r

/-- Dispatch on the value of a `\uXXXX` escape: a high-surrogate value looks
ahead for a paired low-surrogate escape. -/
def uniEscVal (hv : Option Nat) (r : PyStr) : StrTok :=
  match hv with
  | none => .bad
  | some v =>
    if 0xD800 ≤ v ∧ v < 0xDC00 then uniPairTok v r else .emit v r

/-- A `\uXXXX` escape: four hexadecimal digits required. -/
def uniEscTok : PyStr → StrTok
  | a :: b :: c :: d :: r => uniEscVal (hex4Val a b c d) r
  | _ => .bad

/-- A backslash escape (CPython `BACKSLASH` table, plus `\uXXXX`). -/
def escTok : PyStr → StrTok
  | [] => .bad
  | e :: r =>
    if e = 0x75 then uniEscTok r
    else if e = 0x22 then .emit 0x22 r
    else if e = 0x5C then .emit 0x5C r
    else if e = 0x2F then .emit 0x2F r
    else if e = 0x62 then .emit 0x08 r
    else if e = 0x66 then .emit 0x0C r
    else if e = 0x6E then .emit 0x0A r
    else if e = 0x72 then .emit 0x0D r
    else if e = 0x74 then .emit 0x09 r
    else .bad

/-- One scanning step inside a string literal: closing quote, an escape, a
raw control character (rejected, strict mode), or a raw character. -/
def strTok : PyStr → StrTok
  | [] => .bad
  | c :: r =>
    if c = 0x22 then .close r
    else if c = 0x5C then escTok r
    else if c < 0x20 then .bad
    else .emit c r

def parseStrAux : Nat → PyStr → Option (PyStr × PyStr)
  | 0, _ => none
  | f + 1, l =>
    match strTok l with
    | .close r => some ([], r)
    | .bad => none
    | .emit c r => (parseStrAux f r).map (fun p => (c :: p.1, p.2))

/-- Scan a string literal body (after the opening quote), returning the
decoded string and the input after the closing quote. -/
def parseStr (l : PyStr) : Option (PyStr × PyStr) := parseStrAux l.length l

theorem surrPairTok_emit (v : Nat) (hv : Option Nat) (r2 orig : PyStr)
    (x : Nat) (r : PyStr) (h : surrPairTok v hv r2 orig = .emit x r) :
    r = r2 ∨ r = orig := by
  match hv with
  | none =>
    simp only [surrPairTok] at h
    cases h
  | some v2 =>
    simp only [surrPairTok] at h
    split_ifs at h
    · rw [StrTok.emit.injEq] at h
      exact Or.inl h.2.symm
    · rw [StrTok.emit.injEq] at h
      exact Or.inr h.2.symm

theorem uniPairTok_emit (v : Nat) (l : PyStr) (x : Nat) (r : PyStr)
    (h : uniPairTok v l = .emit x r) : r.length ≤ l.length := by
  match l with
  | e1 :: e2 :: a :: b :: c :: d :: r2 =>
    simp only [uniPairTok] at h
    split_ifs at h with hg
    · rcases surrPairTok_emit _ _ _ _ _ _ h with rfl | rfl
      · simp only [List.length_cons]
        omega
      · exact le_refl _
    · cases h
      exact le_refl _
  | [] =>
    simp only [uniPairTok] at h
    cases h
    exact le_refl _
  | [e1] =>
    simp only [uniPairTok] at h
    cases h
    exact le_refl _
  | [e1, e2] =>
    simp only [uniPairTok] at h
    split_ifs at h <;> cases h
    exact le_refl _
  | [e1, e2, a] =>
    simp only [uniPairTok] at h
    split_ifs at h <;> cases h
    exact le_refl _
  | [e1, e2, a, b] =>
    simp only [uniPairTok] at h
    split_ifs at h <;> cases h
    exact le_refl _
  | [e1, e2, a, b, c] =>
    simp only [uniPairTok] at h
    split_ifs at h <;> cases h
    exact le_refl _

theorem uniEscTok_emit (l : PyStr) (x : Nat) (r : PyStr)
    (h : uniEscTok l = .emit x r) : r.length + 4 ≤ l.length := by
  match l with
  | [] =>
    simp only [uniEscTok] at h
    cases h
  | [a] =>
    simp only [uniEscTok] at h
    cases h
  | [a, b] =>
    simp only [uniEscTok] at h
    cases h
  | [a, b, c] =>
    simp only [uniEscTok] at h
    cases h
  | a :: b :: c :: d :: rr =>
    simp only [uniEscTok] at h
    match hv : hex4Val a b c d with
    | none =>
      rw [hv] at h
      simp only [uniEscVal] at h
      cases h
    | some v =>
      rw [hv] at h
      simp only [uniEscVal] at h
      split_ifs at h with hg
      · have := uniPairTok_emit _ _ _ _ h
        simp only [List.length_cons]
        omega
      · cases h
        simp only [List.length_cons]
        omega

theorem escTok_emit (l : PyStr) (x : Nat) (r : PyStr)
    (h : escTok l = .emit x r) : r.length < l.length := by
  match l with
  | [] =>
    simp only [escTok] at h
    cases h
  | e :: rr =>
    simp only [escTok] at h
    split_ifs at h <;> first
      | (cases h; simp)
      | (have hu := uniEscTok_emit _ _ _ h
         simp only [List.length_cons]
         omega)

theorem strTok_emit (l : PyStr) (x : Nat) (r : PyStr)
    (h : strTok l = .emit x r) : r.length < l.length := by
  match l with
  | [] =>
    simp only [strTok] at h
    cases h
  | c :: rr =>
    simp only [strTok] at h
    split_ifs at h <;> first
      | (cases h; simp)
      | (have he := escTok_emit _ _ _ h
         simp only [List.length_cons]
         omega)

theorem uniEscTok_not_close (l : PyStr) (r : PyStr) :
    uniEscTok l ≠ .close r := by
  intro h
  match l with
  | [] =>
    simp only [uniEscTok] at h
    cases h
  | [a] =>
    simp only [uniEscTok] at h
    cases h
  | [a, b] =>
    simp only [uniEscTok] at h
    cases h
  | [a, b, c] =>
    simp only [uniEscTok] at h
    cases h
  | a :: b :: c :: d :: rr =>
    simp only [uniEscTok] at h
    match hv : hex4Val a b c d with
    | none =>
      rw [hv] at h
      simp only [uniEscVal] at h
      cases h
    | some v =>
      rw [hv] at h
      simp only [uniEscVal] at h
      split_ifs at h with hg
      · match rr with
        | e1 :: e2 :: a2 :: b2 :: c2 :: d2 :: r4 =>
          simp only [uniPairTok] at h
          split_ifs at h
          match hv2 : hex4Val a2 b2 c2 d2 with
          | none =>
            rw [hv2] at h
            simp only [surrPairTok] at h
            cases h
          | some v2 =>
            rw [hv2] at h
            simp only [surrPairTok] at h
            split_ifs at h
        | [] =>
          simp only [uniPairTok] at h
          cases h
        | [e1] =>
          simp only [uniPairTok] at h
          cases h
        | [e1, e2] =>
          simp only [uniPairTok] at h
          split_ifs at h
        | [e1, e2, a2] =>
          simp only [uniPairTok] at h
          split_ifs at h
        | [e1, e2, a2, b2] =>
          simp only [uniPairTok] at h
          split_ifs at h
        | [e1, e2, a2, b2, c2] =>
          simp only [uniPairTok] at h
          split_ifs at h

theorem strTok_close (l : PyStr) (r : PyStr)
    (h : strTok l = .close r) : r.length < l.length := by
  match l with
  | [] =>
    simp only [strTok] at h
    cases h
  | c :: rr =>
    simp only [strTok] at h
    split_ifs at h
    · cases h
      simp
    · match rr with
      | [] =>
        simp only [escTok] at h
        cases h
      | e :: rr2 =>
        simp only [escTok] at h
        split_ifs at h
        exact absurd h (uniEscTok_not_close _ _)

theorem parseStrAux_succ (f : Nat) (l : PyStr) :
    parseStrAux (f + 1) l =
      match strTok l with
      | .close r => some ([], r)
      | .bad => none
      | .emit c r => (parseStrAux f r).map (fun p => (c :: p.1, p.2)) := rfl

theorem parseStrAux_fuel (f : Nat) (l : PyStr) (h : l.length ≤ f) :
    parseStrAux f l = parseStr l := by
  unfold parseStr
  induction f using Nat.strong_induction_on generalizing l with
  | _ f ih =>
    match f, l with
    | 0, l =>
      have : l = [] := List.length_eq_zero.1 (by omega)
      subst this
      rfl
    | f + 1, [] => rfl
    | f + 1, b :: rest =>
      rw [List.length_cons, parseStrAux_succ, parseStrAux_succ]
      match hs : strTok (b :: rest) with
      | .close r => rfl
      | .bad => rfl
      | .emit c r =>
        have hr := strTok_emit _ _ _ hs
        simp only [List.length_cons] at hr h
        simp only
        rw [ih f (by omega) r (by omega), ih rest.length (by omega) r (by omega)]

theorem hexVal_hexDigit (k : Nat) (h : k < 16) : hexVal (hexDigit k) = some k := by
  unfold hexDigit hexVal
  split_ifs <;> first | (congr 1; omega) | (exfalso; omega)

theorem hex4Val_hex4 (n : Nat) (h : n < 0x10000) :
    hex4Val (hexDigit (n / 4096 % 16)) (hexDigit (n / 256 % 16))
      (hexDigit (n / 16 % 16)) (hexDigit (n % 16)) = some n := by
  rw [hex4Val, hexVal_hexDigit _ (by omega), hexVal_hexDigit _ (by omega),
    hexVal_hexDigit _ (by omega), hexVal_hexDigit _ (by omega)]
  simp only [Option.some.injEq]
  omega

theorem strTok_quote (r : PyStr) : strTok (0x22 :: r) = .close r := by
  simp [strTok]

theorem strTok_backslash (r : PyStr) : strTok (0x5C :: r) = escTok r := by
  simp [strTok]

theorem strTok_raw (c : Nat) (r : PyStr) (h1 : c ≠ 0x22) (h2 : c ≠ 0x5C)
    (h3 : ¬ c < 0x20) : strTok (c :: r) = .emit c r := by
  simp only [strTok]
  rw [if_neg h1, if_neg h2, if_neg h3]

theorem escTok_u (r : PyStr) : escTok (0x75 :: r) = uniEscTok r := by
  simp [escTok]

theorem escTok_quote (r : PyStr) : escTok (0x22 :: r) = .emit 0x22 r := by
  simp [escTok]

theorem escTok_bs (r : PyStr) : escTok (0x5C :: r) = .emit 0x5C r := by
  simp [escTok]

theorem escTok_b (r : PyStr) : escTok (0x62 :: r) = .emit 0x08 r := by
  simp [escTok]

theorem escTok_t (r : PyStr) : escTok (0x74 :: r) = .emit 0x09 r := by
  simp [escTok]

theorem escTok_n (r : PyStr) : escTok (0x6E :: r) = .emit 0x0A r := by
  simp [escTok]

theorem escTok_f (r : PyStr) : escTok (0x66 :: r) = .emit 0x0C r := by
  simp [escTok]

theorem escTok_r (r : PyStr) : escTok (0x72 :: r) = .emit 0x0D r := by
  simp [escTok]

set_option maxHeartbeats 2000000 in
/-- The scanner consumes exactly one serialized code point and emits it
unchanged: CPython's `json.loads` string scanning inverts `json.dumps`
escaping on every non-surrogate code point. -/
theorem strTok_jsonEscChar (c : Nat) (t : PyStr)
    (hlt : c < 0x110000) (hs : ¬ isSurrogate c) :
    strTok (jsonEscChar c ++ t) = .emit c t := by
  unfold isSurrogate at hs
  unfold jsonEscChar
  split_ifs with h1 h2 h3 h4 h5 h6 h7 h8 h9 h10
  · subst h1
    simp only [List.cons_append, List.nil_append]
    rw [strTok_backslash, escTok_quote]
  · subst h2
    simp only [List.cons_append, List.nil_append]
    rw [strTok_backslash, escTok_bs]
  · subst h3
    simp only [List.cons_append, List.nil_append]
    rw [strTok_backslash, escTok_b]
  · subst h4
    simp only [List.cons_append, List.nil_append]
    rw [strTok_backslash, escTok_t]
  · subst h5
    simp only [List.cons_append, List.nil_append]
    rw [strTok_backslash, escTok_n]
  · subst h6
    simp only [List.cons_append, List.nil_append]
    rw [strTok_backslash, escTok_f]
  · subst h7
    simp only [List.cons_append, List.nil_append]
    rw [strTok_backslash, escTok_r]
  · -- other control characters: single \u00XX escape
    simp only [hex4, List.cons_append, List.nil_append]
    rw [strTok_backslash, escTok_u]
    simp only [uniEscTok]
    rw [hex4Val_hex4 c (by omega)]
    simp only [uniEscVal]
    have hcond : ¬ (0xD800 ≤ c ∧ c < 0xDC00) := by omega
    rw [if_neg hcond]
  · -- printable ASCII, raw
    simp only [List.cons_append, List.nil_append]
    exact strTok_raw c t h1 h2 h8
  · -- BMP, single \uXXXX escape
    simp only [hex4, List.cons_append, List.nil_append]
    rw [strTok_backslash, escTok_u]
    simp only [uniEscTok]
    rw [hex4Val_hex4 c (by omega)]
    simp only [uniEscVal]
    have hcond : ¬ (0xD800 ≤ c ∧ c < 0xDC00) := by omega
    rw [if_neg hcond]
  · -- astral: surrogate-pair escape
    simp only [hex4, List.cons_append, List.nil_append, List.append_assoc]
    rw [strTok_backslash, escTok_u]
    simp only [uniEscTok]
    rw [hex4Val_hex4 (0xD800 + (c - 0x10000) / 1024) (by omega)]
    simp only [uniEscVal]
    have hhi : 0xD800 ≤ 0xD800 + (c - 0x10000) / 1024 ∧
        0xD800 + (c - 0x10000) / 1024 < 0xDC00 := by
      constructor <;> omega
    rw [if_pos hhi]
    simp only [uniPairTok, and_self, if_true]
    rw [hex4Val_hex4 (0xDC00 + (c - 0x10000) % 1024) (by omega)]
    simp only [surrPairTok]
    have hlo : 0xDC00 ≤ 0xDC00 + (c - 0x10000) % 1024 ∧
        0xDC00 + (c - 0x10000) % 1024 < 0xE000 := by
      constructor <;> omega
    rw [if_pos hlo]
    have hc : 0x10000 + (0xD800 + (c - 0x10000) / 1024 - 0xD800) * 1024 +
        (0xDC00 + (c - 0x10000) % 1024 - 0xDC00) = c := by
      omega
    rw [hc]

theorem parseStrAux_encoded (s : PyStr) :
    ∀ (t : PyStr) (f : Nat),
      ((s.map jsonEscChar).flatten ++ (0x22 :: t)).length ≤ f →
      PyWf s → NoSurrogates s →
      parseStrAux f ((s.map jsonEscChar).flatten ++ (0x22 :: t)) =
        some (s, t) := by
  induction s with
  | nil =>
    intro t f hf _ _
    simp only [List.map_nil, List.flatten_nil, List.nil_append,
      List.length_cons] at hf ⊢
    match f, hf with
    | f + 1, _ =>
      rw [parseStrAux_succ, strTok_quote]
  | cons c s ih =>
    intro t f hf hwf hns
    simp only [List.map_cons, List.flatten_cons, List.append_assoc] at hf ⊢
    have hc1 : c < 0x110000 := hwf c (List.mem_cons_self _ _)
    have hc2 : ¬ isSurrogate c := hns c (List.mem_cons_self _ _)
    have hlen : 1 ≤ (jsonEscChar c ++ ((s.map jsonEscChar).flatten ++
        (0x22 :: t))).length := by
      simp only [List.length_append, List.length_cons]
      omega
    match f, (by omega : 1 ≤ f) with
    | f + 1, _ =>
      rw [parseStrAux_succ, strTok_jsonEscChar c _ hc1 hc2]
      have hsh := strTok_emit _ _ _ (strTok_jsonEscChar c
        ((s.map jsonEscChar).flatten ++ (0x22 :: t)) hc1 hc2)
      have hres := ih t f (by omega)
        (fun n hn => hwf n (List.mem_cons_of_mem _ hn))
        (fun n hn => hns n (List.mem_cons_of_mem _ hn))
      dsimp only
      rw [hres]
      rfl

/-- `py_scanstring` inverts `json.dumps` escaping on every well-formed
surrogate-free string. -/
theorem parseStr_encoded (s t : PyStr) (hwf : PyWf s) (hns : NoSurrogates s) :
    parseStr ((s.map jsonEscChar).flatten ++ (0x22 :: t)) = some (s, t) :=
  parseStrAux_encoded s t _ (le_refl _) hwf hns

theorem parseStrAux_rest (f : Nat) :
    ∀ (l : PyStr) (p : PyStr × PyStr), parseStrAux f l = some p →
      p.2.length < l.length := by
  induction f with
  | zero =>
    intro l p h
    simp [parseStrAux] at h
  | succ f ih =>
    intro l p h
    rw [parseStrAux_succ] at h
    match hs : strTok l with
    | .close r =>
      rw [hs] at h
      cases h
      exact strTok_close _ _ hs
    | .bad => rw [hs] at h; cases h
    | .emit c r =>
      rw [hs] at h
      simp only at h
      match hp : parseStrAux f r with
      | none => rw [hp] at h; cases h
      | some p2 =>
        rw [hp] at h
        cases h
        have h1 := ih r p2 hp
        have h2 := strTok_emit _ _ _ hs
        simp only
        omega

theorem parseStr_rest (l : PyStr) (p : PyStr × PyStr)
    (h : parseStr l = some p) : p.2.length < l.length :=
  parseStrAux_rest _ _ _ h

/-- Expect one specific code point at the head of the input. -/
def expectChar (c : Nat) : PyStr → Option PyStr
  | x :: r => if x = c then some r else none
  | [] => none

/-- Parse one `"key" : "value"` member (whitespace allowed around the colon,
as CPython's object scanner does); values that are not string literals are
outside the modelled subset. -/
def parseOneMember (l : PyStr) : Option ((PyStr × PyStr) × PyStr) :=
  (expectChar 0x22 l).bind fun r =>
  (parseStr r).bind fun kp =>
  (expectChar 0x3A (skipWs kp.2)).bind fun r2 =>
  (expectChar 0x22 (skipWs r2)).bind fun r3 =>
  (parseStr r3).map fun vp => ((kp.1, vp.1), vp.2)

/-- What follows a member: a comma (another member must follow) or a closing
brace. -/
inductive SepTok where
  | comma (rest : PyStr)
  | rbrace (rest : PyStr)
  | bad
deriving DecidableEq

def sepTokCore : PyStr → SepTok
  | c :: r =>
    if c = 0x2C then .comma (skipWs r)
    else if c = 0x7D then .rbrace r
    else .bad
  | [] => .bad

def sepTok (l : PyStr) : SepTok := sepTokCore (skipWs l)

def parseMembersAux : Nat → PyStr → Option (List (PyStr × PyStr) × PyStr)
  | 0, _ => none
  | f + 1, l =>
    match parseOneMember l with
    | none => none
    | some (kv, r) =>
      match sepTok r with
      | .comma r2 => (parseMembersAux f r2).map (fun p => (kv :: p.1, p.2))
      | .rbrace r3 => some ([kv], r3)
      | .bad => none

/-- Parse the non-empty member list of a JSON object (after the opening
brace and any whitespace), returning the input after the closing brace. -/
def parseMembers (l : PyStr) : Option (List (PyStr × PyStr) × PyStr) :=
  parseMembersAux l.length l

theorem skipWs_length (l : PyStr) : (skipWs l).length ≤ l.length := by
  induction l with
  | nil => exact le_refl _
  | cons c r ih =>
    simp only [skipWs]
    split_ifs
    · simp only [List.length_cons]
      omega
    · exact le_refl _

theorem expectChar_rest (c : Nat) (l r : PyStr) (h : expectChar c l = some r) :
    r.length + 1 = l.length := by
  match l with
  | [] => cases h
  | x :: l2 =>
    simp only [expectChar] at h
    split_ifs at h
    cases h
    rfl

theorem parseOneMember_rest (l : PyStr) (kv : PyStr × PyStr) (r : PyStr)
    (h : parseOneMember l = some (kv, r)) : r.length < l.length := by
  unfold parseOneMember at h
  match h1 : expectChar 0x22 l with
  | none => rw [h1] at h; cases h
  | some r1 =>
    rw [h1] at h
    simp only [Option.some_bind] at h
    match h2 : parseStr r1 with
    | none => rw [h2] at h; cases h
    | some kp =>
      rw [h2] at h
      simp only [Option.some_bind] at h
      match h3 : expectChar 0x3A (skipWs kp.2) with
      | none => rw [h3] at h; cases h
      | some r2 =>
        rw [h3] at h
        simp only [Option.some_bind] at h
        match h4 : expectChar 0x22 (skipWs r2) with
        | none => rw [h4] at h; cases h
        | some r3 =>
          rw [h4] at h
          simp only [Option.some_bind] at h
          match h5 : parseStr r3 with
          | none => rw [h5] at h; cases h
          | some vp =>
            rw [h5] at h
            simp only [Option.map_some'] at h
            cases h
            have e1 := expectChar_rest _ _ _ h1
            have e2 := parseStr_rest _ _ h2
            have e3 := expectChar_rest _ _ _ h3
            have e4 := expectChar_rest _ _ _ h4
            have e5 := parseStr_rest _ _ h5
            have s1 := skipWs_length kp.2
            have s2 := skipWs_length r2
            omega

theorem sepTok_comma_rest (l r : PyStr) (h : sepTok l = .comma r) :
    r.length ≤ l.length := by
  unfold sepTok at h
  match hw : skipWs l with
  | [] =>
    rw [hw] at h
    cases h
  | c :: r2 =>
    rw [hw] at h
    simp only [sepTokCore] at h
    split_ifs at h <;> cases h
    have h1 := skipWs_length l
    have h2 := skipWs_length r2
    rw [hw] at h1
    simp only [List.length_cons] at h1
    omega

theorem parseMembersAux_succ (f : Nat) (l : PyStr) :
    parseMembersAux (f + 1) l =
      match parseOneMember l with
      | none => none
      | some (kv, r) =>
        match sepTok r with
        | .comma r2 => (parseMembersAux f r2).map (fun p => (kv :: p.1, p.2))
        | .rbrace r3 => some ([kv], r3)
        | .bad => none := rfl

theorem parseMembersAux_fuel (f : Nat) (l : PyStr) (h : l.length ≤ f) :
    parseMembersAux f l = parseMembers l := by
  unfold parseMembers
  induction f using Nat.strong_induction_on generalizing l with
  | _ f ih =>
    match f with
    | 0 =>
      have : l = [] := List.length_eq_zero.1 (by omega)
      subst this
      rfl
    | f + 1 =>
      match hl : l.length with
      | 0 =>
        have : l = [] := List.length_eq_zero.1 hl
        subst this
        rw [parseMembersAux_succ]
        have hm : parseOneMember [] = none := rfl
        rw [hm]
        rfl
      | k + 1 =>
        rw [parseMembersAux_succ, parseMembersAux_succ]
        match hm : parseOneMember l with
        | none => rfl
        | some (kv, r) =>
          dsimp only
          match hs : sepTok r with
          | .comma r2 =>
            have d1 := parseOneMember_rest _ _ _ hm
            have d2 := sepTok_comma_rest _ _ hs
            dsimp only
            rw [ih f (by omega) r2 (by omega), ih k (by omega) r2 (by omega)]
          | .rbrace r3 => rfl
          | .bad => rfl

/-- `json.loads` restricted to the object-of-strings subset: optional
whitespace, an object `{...}` whose values are string literals, optional
whitespace, end of input (CPython raises `Extra data` otherwise). -/
def jsonLoads (s : PyStr) : Option (List (PyStr × PyStr)) :=
  (expectChar 0x7B (skipWs s)).bind fun r =>
    match expectChar 0x7D (skipWs r) with
    | some r2 => if skipWs r2 = [] then some [] else none
    | none =>
      (parseMembers (skipWs r)).bind fun p =>
        if skipWs p.2 = [] then some p.1 else none

/-- CPython `dict` lookup on the parsed member list: later duplicate keys
win (`object_pairs` are folded into a `dict` in order). -/
def dictGet (kvs : List (PyStr × PyStr)) (k : PyStr) : Option PyStr :=
  (kvs.reverse.find? (fun p => p.1 == k)).map (fun p => p.2)

theorem skipWs_no (c : Nat) (r : PyStr) (h : ¬ jsonWsChar c) :
    skipWs (c :: r) = c :: r := by
  simp only [skipWs, if_neg h]

theorem skipWs_ws (c : Nat) (r : PyStr) (h : jsonWsChar c) :
    skipWs (c :: r) = skipWs r := by
  simp only [skipWs, if_pos h]

theorem expectChar_hit (c : Nat) (r : PyStr) : expectChar c (c :: r) = some r := by
  simp [expectChar]

theorem expectChar_miss (c x : Nat) (r : PyStr) (h : x ≠ c) :
    expectChar c (x :: r) = none := by
  simp only [expectChar, if_neg h]

theorem jsonStrBytes_cons (s t : PyStr) :
    jsonStrBytes s ++ t = 0x22 :: ((s.map jsonEscChar).flatten ++ (0x22 :: t)) := by
  simp only [jsonStrBytes, List.cons_append, List.append_assoc,
    List.singleton_append, List.nil_append]

theorem parseOneMember_build (key val rest : PyStr)
    (hkw : PyWf key) (hkn : NoSurrogates key)
    (hvw : PyWf val) (hvn : NoSurrogates val) :
    parseOneMember (jsonStrBytes key ++
        (0x3A :: 0x20 :: (jsonStrBytes val ++ rest))) =
      some ((key, val), rest) := by
  rw [jsonStrBytes_cons]
  unfold parseOneMember
  rw [expectChar_hit]
  simp only [Option.some_bind]
  rw [parseStr_encoded key _ hkw hkn]
  simp only [Option.some_bind]
  rw [skipWs_no 0x3A _ (by decide)]
  rw [expectChar_hit]
  simp only [Option.some_bind]
  rw [skipWs_ws 0x20 _ (by decide)]
  rw [jsonStrBytes_cons]
  rw [skipWs_no 0x22 _ (by decide)]
  rw [expectChar_hit]
  simp only [Option.some_bind]
  rw [parseStr_encoded val rest hvw hvn]
  rfl

theorem parseMembers_cons (l : PyStr) (kv : PyStr × PyStr) (r r2 : PyStr)
    (h1 : parseOneMember l = some (kv, r)) (h2 : sepTok r = .comma r2) :
    parseMembers l = (parseMembers r2).map (fun p => (kv :: p.1, p.2)) := by
  have d1 := parseOneMember_rest _ _ _ h1
  have d2 := sepTok_comma_rest _ _ h2
  unfold parseMembers
  match hl : l.length with
  | 0 =>
    have : l = [] := List.length_eq_zero.1 hl
    subst this
    cases h1
  | k + 1 =>
    rw [parseMembersAux_succ, h1]
    dsimp only
    rw [h2]
    dsimp only
    rw [parseMembersAux_fuel k r2 (by omega)]
    rw [parseMembersAux_fuel r2.length r2 (le_refl _)]

theorem parseMembers_last (l : PyStr) (kv : PyStr × PyStr) (r r3 : PyStr)
    (h1 : parseOneMember l = some (kv, r)) (h2 : sepTok r = .rbrace r3) :
    parseMembers l = some ([kv], r3) := by
  have d1 := parseOneMember_rest _ _ _ h1
  unfold parseMembers
  match hl : l.length with
  | 0 =>
    have : l = [] := List.length_eq_zero.1 hl
    subst this
    cases h1
  | k + 1 =>
    rw [parseMembersAux_succ, h1]
    dsimp only
    rw [h2]

/-- `json.loads(json.dumps({"name": n, "data": d}))` recovers exactly the
two-member object, for well-formed surrogate-free `n` and `d`. -/
theorem jsonLoads_dumpsNameData (n d : PyStr)
    (h1 : PyWf n) (h2 : NoSurrogates n) (h3 : PyWf d) (h4 : NoSurrogates d) :
    jsonLoads (dumpsNameData n d) =
      some [(pyOfString "name", n), (pyOfString "data", d)] := by
  unfold dumpsNameData
  simp only [List.append_assoc, List.cons_append, List.nil_append]
  unfold jsonLoads
  rw [skipWs_no 0x7B _ (by decide)]
  rw [expectChar_hit]
  simp only [Option.some_bind]
  rw [jsonStrBytes_cons]
  rw [skipWs_no 0x22 _ (by decide)]
  rw [expectChar_miss _ _ _ (by decide)]
  rw [← jsonStrBytes_cons]
  have hm1 : parseOneMember (jsonStrBytes (pyOfString "name") ++
      (0x3A :: 0x20 :: (jsonStrBytes n ++
        (0x2C :: 0x20 :: (jsonStrBytes (pyOfString "data") ++
          (0x3A :: 0x20 :: (jsonStrBytes d ++ [0x7D]))))))) =
      some ((pyOfString "name", n),
        0x2C :: 0x20 :: (jsonStrBytes (pyOfString "data") ++
          (0x3A :: 0x20 :: (jsonStrBytes d ++ [0x7D])))) :=
    parseOneMember_build _ _ _ (by decide) (by decide) h1 h2
  have hm2 : parseOneMember (jsonStrBytes (pyOfString "data") ++
      (0x3A :: 0x20 :: (jsonStrBytes d ++ [0x7D]))) =
      some ((pyOfString "data", d), [0x7D]) :=
    parseOneMember_build _ _ _ (by decide) (by decide) h3 h4
  have hs1 : sepTok (0x2C :: 0x20 :: (jsonStrBytes (pyOfString "data") ++
      (0x3A :: 0x20 :: (jsonStrBytes d ++ [0x7D])))) =
      .comma (jsonStrBytes (pyOfString "data") ++
        (0x3A :: 0x20 :: (jsonStrBytes d ++ [0x7D]))) := by
    unfold sepTok
    rw [skipWs_no 0x2C _ (by decide)]
    simp only [sepTokCore, if_true]
    rw [skipWs_ws 0x20 _ (by decide)]
    rw [jsonStrBytes_cons]
    rw [skipWs_no 0x22 _ (by decide)]
  have hs2 : sepTok ([0x7D] : PyStr) = .rbrace [] := by decide
  rw [parseMembers_cons _ _ _ _ hm1 hs1]
  rw [parseMembers_last _ _ _ _ hm2 hs2]
  rfl

/-! ## Decimal codec: `str(id)` and `int(id)` -/

def digitsAux : Nat → Nat → List Nat
  | 0, _ => []
  | f + 1, n => if n < 10 then [n] else digitsAux f (n / 10) ++ [n % 10]

/-- Decimal digits of `n`, most significant first. -/
def natToDigs (n : Nat) : List Nat := digitsAux (n + 1) n

theorem digitsAux_fuel (n : Nat) :
    ∀ f f', n < f → n < f' → digitsAux f n = digitsAux f' n := by
  induction n using Nat.strong_induction_on with
  | _ n ih =>
    intro f f' hf hf'
    match f, f' with
    | f + 1, f' + 1 =>
      simp only [digitsAux]
      split_ifs with h
      · rfl
      · rw [ih (n / 10) (by omega) f f' (by omega) (by omega)]

def parseDigs (l : List Nat) : Nat := l.foldl (fun a k => a * 10 + k) 0

theorem parseDigs_append_one (l : List Nat) (d : Nat) :
    parseDigs (l ++ [d]) = parseDigs l * 10 + d := by
  unfold parseDigs
  rw [List.foldl_append]
  rfl

theorem parseDigs_natToDigs (n : Nat) : parseDigs (natToDigs n) = n := by
  induction n using Nat.strong_induction_on with
  | _ n ih =>
    unfold natToDigs
    simp only [digitsAux]
    split_ifs with h
    · simp [parseDigs]
    · rw [digitsAux_fuel (n / 10) n (n / 10 + 1) (by omega) (by omega)]
      have e : digitsAux (n / 10 + 1) (n / 10) = natToDigs (n / 10) := rfl
      rw [e, parseDigs_append_one, ih (n / 10) (by omega)]
      omega

theorem natToDigs_mem (n : Nat) : ∀ d ∈ natToDigs n, d < 10 := by
  induction n using Nat.strong_induction_on with
  | _ n ih =>
    unfold natToDigs
    simp only [digitsAux]
    split_ifs with h
    · intro d hd
      rcases List.mem_singleton.1 hd with rfl
      omega
    · intro d hd
      rw [digitsAux_fuel (n / 10) n (n / 10 + 1) (by omega)
        (by omega)] at hd
      have e : digitsAux (n / 10 + 1) (n / 10) = natToDigs (n / 10) := rfl
      rw [e] at hd
      rcases List.mem_append.1 hd with h1 | h2
      · exact ih (n / 10) (by omega) d h1
      · rcases List.mem_singleton.1 h2 with rfl
        exact Nat.mod_lt _ (by norm_num)

theorem natToDigs_ne_nil (n : Nat) : natToDigs n ≠ [] := by
  unfold natToDigs
  simp only [digitsAux]
  split_ifs with h
  · simp
  · simp

/-- `str(n)` for a natural number. -/
def natToStr (n : Nat) : PyStr := (natToDigs n).map (fun k => k + 0x30)

/-- `str(i)` for a Python `int`: decimal digits, `-`-prefixed when negative. -/
def intToPyStr : Int → PyStr
  | Int.ofNat m => natToStr m
  | Int.negSucc m => 0x2D :: natToStr (m + 1)

/-- Value of a non-empty all-digit string. -/
def digitsValue (l : PyStr) : Option Nat :=
  if l ≠ [] ∧ ∀ c ∈ l, 0x30 ≤ c ∧ c ≤ 0x39 then
    some (parseDigs (l.map (fun c => c - 0x30)))
  else none

/-- `int(s)` on the canonical decimal forms: optional sign, digits.
(CPython also strips whitespace and underscores; no claim touches those.)
`none` models `ValueError`. -/
def pyStrToInt (s : PyStr) : Option Int :=
  match s with
  | c :: rest =>
    if c = 0x2D then (digitsValue rest).map (fun v => - Int.ofNat v)
    else if c = 0x2B then (digitsValue rest).map Int.ofNat
    else (digitsValue (c :: rest)).map Int.ofNat
  | [] => none

theorem digitsValue_natToStr (n : Nat) : digitsValue (natToStr n) = some n := by
  unfold digitsValue natToStr
  rw [if_pos ?side]
  case side =>
    constructor
    · simp only [ne_eq, List.map_eq_nil_iff]
      exact natToDigs_ne_nil n
    · intro c hc
      rcases List.mem_map.1 hc with ⟨d, hd, rfl⟩
      have := natToDigs_mem n d hd
      omega
  · rw [List.map_map]
    have hmm : ((fun c => c - 0x30) ∘ (fun k => k + 0x30)) = (id : Nat → Nat) := by
      funext k
      simp
    rw [hmm, List.map_id, parseDigs_natToDigs]

theorem natToStr_head (n : Nat) :
    ∃ d r, natToStr n = (d + 0x30) :: r ∧ d < 10 := by
  unfold natToStr
  match hd : natToDigs n with
  | [] => exact absurd hd (natToDigs_ne_nil n)
  | d :: r =>
    refine ⟨d, r.map (fun k => k + 0x30), by simp, ?_⟩
    exact natToDigs_mem n d (by rw [hd]; exact List.mem_cons_self _ _)

/-- `int(str(i)) = i`. -/
theorem pyStrToInt_intToPyStr (i : Int) : pyStrToInt (intToPyStr i) = some i := by
  match i with
  | Int.ofNat m =>
    simp only [intToPyStr]
    obtain ⟨d, r, he, hd⟩ := natToStr_head m
    rw [he, pyStrToInt]
    rw [if_neg (by omega), if_neg (by omega), ← he, digitsValue_natToStr]
    rfl
  | Int.negSucc m =>
    simp only [intToPyStr]
    rw [pyStrToInt]
    rw [if_pos rfl, digitsValue_natToStr]
    rw [Option.map_some']
    congr 1

/-! ## ASCII bridges -/

theorem utf8Dec_ascii (l : List Nat) (h : ∀ b ∈ l, b < 0x80) :
    utf8Dec l = some l := by
  induction l with
  | nil => rfl
  | cons b r ih =>
    have hb : b < 0x80 := h b (List.mem_cons_self _ _)
    have hstep : utf8DecStep (b :: r) = some (b, r) := by
      simp only [utf8DecStep, if_pos hb]
    rw [utf8Dec_step_some _ _ _ hstep,
      ih (fun x hx => h x (List.mem_cons_of_mem _ hx))]
    rfl

theorem utf8Enc_ascii (s : PyStr) (h : ∀ b ∈ s, b < 0x80) :
    utf8Enc s = some s := by
  induction s with
  | nil => rfl
  | cons b r ih =>
    have hb : b < 0x80 := h b (List.mem_cons_self _ _)
    simp only [utf8Enc]
    rw [if_pos ⟨by omega, by unfold isSurrogate; omega⟩,
      ih (fun x hx => h x (List.mem_cons_of_mem _ hx))]
    simp only [Option.map_some', Option.some.injEq]
    rw [utf8EncChar, if_pos hb]
    rfl

theorem hexDigit_lt (k : Nat) (h : k < 16) : hexDigit k < 0x80 := by
  unfold hexDigit
  split_ifs <;> omega

theorem hex4_mem (n : Nat) : ∀ x ∈ hex4 n, x < 0x80 := by
  intro x hx
  simp only [hex4, List.mem_cons, List.not_mem_nil, or_false] at hx
  rcases hx with h | h | h | h <;>
    (rw [h]; exact hexDigit_lt _ (Nat.mod_lt _ (by norm_num)))

set_option maxHeartbeats 1000000 in
theorem jsonEscChar_ascii (c : Nat) : ∀ x ∈ jsonEscChar c, x < 0x80 := by
  intro x hx
  unfold jsonEscChar at hx
  split_ifs at hx with h1 h2 h3 h4 h5 h6 h7 h8 h9 h10
  · rcases List.mem_cons.1 hx with h | hx2
    · omega
    rcases List.mem_cons.1 hx2 with h | hx3
    · omega
    cases hx3
  · rcases List.mem_cons.1 hx with h | hx2
    · omega
    rcases List.mem_cons.1 hx2 with h | hx3
    · omega
    cases hx3
  · rcases List.mem_cons.1 hx with h | hx2
    · omega
    rcases List.mem_cons.1 hx2 with h | hx3
    · omega
    cases hx3
  · rcases List.mem_cons.1 hx with h | hx2
    · omega
    rcases List.mem_cons.1 hx2 with h | hx3
    · omega
    cases hx3
  · rcases List.mem_cons.1 hx with h | hx2
    · omega
    rcases List.mem_cons.1 hx2 with h | hx3
    · omega
    cases hx3
  · rcases List.mem_cons.1 hx with h | hx2
    · omega
    rcases List.mem_cons.1 hx2 with h | hx3
    · omega
    cases hx3
  · rcases List.mem_cons.1 hx with h | hx2
    · omega
    rcases List.mem_cons.1 hx2 with h | hx3
    · omega
    cases hx3
  · rcases List.mem_cons.1 hx with h | hx2
    · omega
    rcases List.mem_cons.1 hx2 with h | hx3
    · omega
    exact hex4_mem _ _ hx3
  · rcases List.mem_cons.1 hx with h | hx2
    · omega
    cases hx2
  · rcases List.mem_cons.1 hx with h | hx2
    · omega
    rcases List.mem_cons.1 hx2 with h | hx3
    · omega
    exact hex4_mem _ _ hx3
  · rcases List.mem_cons.1 hx with h | hx2
    · omega
    rcases List.mem_cons.1 hx2 with h | hx3
    · omega
    rcases List.mem_append.1 hx3 with hx4 | hx5
    · exact hex4_mem _ _ hx4
    rcases List.mem_cons.1 hx5 with h | hx6
    · omega
    rcases List.mem_cons.1 hx6 with h | hx7
    · omega
    exact hex4_mem _ _ hx7

theorem jsonStrBytesAscii (s : PyStr) : ∀ b ∈ jsonStrBytes s, b < 0x80 := by
  intro b hb
  unfold jsonStrBytes at hb
  rcases List.mem_cons.1 hb with rfl | hb2
  · omega
  rcases List.mem_append.1 hb2 with hb3 | hb4
  · rcases List.mem_flatten.1 hb3 with ⟨l2, hl2, hbl⟩
    rcases List.mem_map.1 hl2 with ⟨c, _, rfl⟩
    exact jsonEscChar_ascii c b hbl
  · rcases List.mem_singleton.1 hb4 with rfl
    omega

theorem asciiAppend {l1 l2 : List Nat} (h1 : ∀ b ∈ l1, b < 0x80)
    (h2 : ∀ b ∈ l2, b < 0x80) : ∀ b ∈ l1 ++ l2, b < 0x80 := fun b hb =>
  (List.mem_append.1 hb).elim (h1 b) (h2 b)

theorem dumpsNameData_ascii (n d : PyStr) :
    ∀ b ∈ dumpsNameData n d, b < 0x80 := by
  unfold dumpsNameData
  refine asciiAppend (asciiAppend (asciiAppend (asciiAppend (asciiAppend
    (asciiAppend (asciiAppend (asciiAppend (by decide)
      (jsonStrBytesAscii _)) (by decide)) (jsonStrBytesAscii _))
      (by decide)) (jsonStrBytesAscii _)) (by decide))
      (jsonStrBytesAscii _)) (by decide)

/-! ## Exceptions, key derivation, MACs (`hashlib` / `hmac` boundary) -/

/-- The Python exceptions the modelled code can raise. -/
inductive PyError where
  | valueError (msg : PyStr)
  | loadContainerError (msg : PyStr)
  | loadVaultError (msg : PyStr)
  | keyError (key : PyStr)
  | unicodeDecodeError
  | unicodeEncodeError
  | jsonDecodeError
deriving DecidableEq

/-- An AES key derived by `SymmetricKey.generate_aes_key`: PBKDF2-HMAC-SHA256
is modelled as an ideal KDF, injective in `(password, salt)`, so the derived
key is represented by that pair. -/
structure AESKey where
  password : PyStr
  salt : List Nat
deriving DecidableEq

/-- A hex-encoded `hmac.new(key, msg, sha256).hexdigest()` value: the MAC is
modelled as an ideal MAC, injective in `(key, message)`. -/
structure MacVal where
  key : AESKey
  msg : List Nat
deriving DecidableEq

def hmacSha256 (k : AESKey) (m : List Nat) : MacVal := ⟨k, m⟩

/-- The vault-level MAC: HMAC over the concatenation of the per-container
64-character MAC hex strings, which is in bijection with the list of those
MAC values. -/
structure VaultMacVal where
  key : AESKey
  macs : List MacVal
deriving DecidableEq

def vaultHmac (k : AESKey) (ms : List MacVal) : VaultMacVal := ⟨k, ms⟩

/-- `SymmetricKey.generate_aes_key(password)`: derives the key after the
UTF-8 encoding of the password (`password.encode('utf-8')`), which raises
`UnicodeEncodeError` on lone surrogates. -/
def generate_aes_key (password : PyStr) (salt : List Nat) :
    Except PyError AESKey :=
  match utf8Enc password with
  | some _ => .ok ⟨password, salt⟩
  | none => .error .unicodeEncodeError

/-! ## PKCS#7 padding (`Crypto.Util.Padding.pad/unpad`) -/

def pad16 (pt : List Nat) : List Nat :=
  pt ++ List.replicate (16 - pt.length % 16) (16 - pt.length % 16)

def unpad16 (p : List Nat) : Except PyError (List Nat) :=
  if p.length = 0 then
    .error (.valueError (pyOfString "Zero-length input cannot be unpadded"))
  else if p.length % 16 ≠ 0 then
    .error (.valueError (pyOfString "Input data is not padded"))
  else
    match p.getLast? with
    | none =>
      .error (.valueError (pyOfString "Zero-length input cannot be unpadded"))
    | some n =>
      if n < 1 ∨ 16 < n then
        .error (.valueError (pyOfString "Padding is incorrect."))
      else if p.drop (p.length - n) ≠ List.replicate n n then
        .error (.valueError (pyOfString "PKCS#7 padding is incorrect."))
      else .ok (p.take (p.length - n))

theorem getLast?_replicate (n x : Nat) (h : 0 < n) :
    (List.replicate n x).getLast? = some x := by
  induction n with
  | zero => omega
  | succ n ih =>
    match n with
    | 0 => rfl
    | m + 1 =>
      rw [List.replicate_succ, List.getLast?_cons, ih (by omega)]
      simp [List.replicate_succ]

theorem pad16_length (pt : List Nat) : (pad16 pt).length % 16 = 0 := by
  unfold pad16
  rw [List.length_append, List.length_replicate]
  omega

theorem unpad16_pad16 (pt : List Nat) : unpad16 (pad16 pt) = .ok pt := by
  have hn1 : 1 ≤ 16 - pt.length % 16 := by omega
  have hlen : (pad16 pt).length = pt.length + (16 - pt.length % 16) := by
    unfold pad16
    rw [List.length_append, List.length_replicate]
  unfold unpad16
  rw [if_neg (by omega), if_neg (by simp only [pad16_length]; omega)]
  have hlast : (pad16 pt).getLast? = some (16 - pt.length % 16) := by
    unfold pad16
    rw [List.getLast?_append_of_ne_nil _ (by
      simp only [ne_eq, List.replicate_eq_nil_iff]
      omega)]
    exact getLast?_replicate _ _ (by omega)
  rw [hlast]
  dsimp only
  rw [if_neg (by omega)]
  have hdrop : (pad16 pt).drop ((pad16 pt).length - (16 - pt.length % 16)) =
      List.replicate (16 - pt.length % 16) (16 - pt.length % 16) := by
    rw [hlen]
    have : pt.length + (16 - pt.length % 16) - (16 - pt.length % 16) =
        pt.length := by omega
    rw [this]
    unfold pad16
    exact List.drop_left _ _
  rw [if_neg (by rw [hdrop]; simp)]
  rw [hlen]
  have : pt.length + (16 - pt.length % 16) - (16 - pt.length % 16) =
      pt.length := by omega
  rw [this]
  unfold pad16
  rw [List.take_left]

/-! ## AES-256-CBC (`Crypto.Cipher.AES`, `MODE_CBC`)

The AES block permutation is abstracted as a key-dependent bijection on
bytes (XOR with a key fingerprint; an involution, so decryption applies the
same map).  The CBC chaining, the initialization vector and the
multiple-of-16 length check are modelled exactly; no claim depends on more
than bijectivity and the chaining structure. -/

/-- A key fingerprint in `[0, 256)`, standing in for the AES key schedule. -/
def keyFp (k : AESKey) : Nat :=
  (k.password.foldl (fun a x => (a * 131 + x) % 256) 7 +
    k.salt.foldl (fun a x => (a * 131 + x) % 256) 13) % 256

/-- The modelled block permutation, applied bytewise (an involution). -/
def encByte (k : AESKey) (x : Nat) : Nat := x ^^^ keyFp k

/-- Split into 16-byte cipher blocks (callers check divisibility by 16). -/
def chunk16 : List Nat → List (List Nat)
  | x1 :: x2 :: x3 :: x4 :: x5 :: x6 :: x7 :: x8 :: x9 :: x10 :: x11 :: x12 ::
      x13 :: x14 :: x15 :: x16 :: rest =>
    [x1, x2, x3, x4, x5, x6, x7, x8, x9, x10, x11, x12, x13, x14, x15, x16] ::
      chunk16 rest
  | [] => []
  | l => [l]

def zipXor (a b : List Nat) : List Nat := List.zipWith (fun x y => x ^^^ y) a b

def cbcEncBlocks (k : AESKey) : List Nat → List (List Nat) → List (List Nat)
  | _, [] => []
  | prev, b :: bs =>
    let c := (zipXor b prev).map (encByte k)
    c :: cbcEncBlocks k c bs

def cbcDecBlocks (k : AESKey) : List Nat → List (List Nat) → List (List Nat)
  | _, [] => []
  | prev, c :: cs => zipXor (c.map (encByte k)) prev :: cbcDecBlocks k c cs

/-- `AES.new(key, AES.MODE_CBC, iv).encrypt(pt)`. -/
def aesCbcEncrypt (k : AESKey) (iv : List Nat) (pt : List Nat) :
    Except PyError (List Nat) :=
  if pt.length % 16 ≠ 0 then
    .error (.valueError
      (pyOfString "Data must be padded to 16 byte boundary in CBC mode"))
  else .ok (cbcEncBlocks k iv (chunk16 pt)).flatten

/-- `AES.new(key, AES.MODE_CBC, iv).decrypt(ct)`. -/
def aesCbcDecrypt (k : AESKey) (iv : List Nat) (ct : List Nat) :
    Except PyError (List Nat) :=
  if ct.length % 16 ≠ 0 then
    .error (.valueError
      (pyOfString "Data must be padded to 16 byte boundary in CBC mode"))
  else .ok (cbcDecBlocks k iv (chunk16 ct)).flatten

theorem chunk16_flatten (l : List Nat) : (chunk16 l).flatten = l := by
  induction l using chunk16.induct with
  | case1 x1 x2 x3 x4 x5 x6 x7 x8 x9 x10 x11 x12 x13 x14 x15 x16 rest ih =>
    simp only [chunk16, List.flatten_cons, ih]
    rfl
  | case2 =>
    rfl
  | case3 l h1 h2 =>
    rw [chunk16.eq_3 l h1 h2]
    simp

theorem chunk16_mem_length (l : List Nat) (h : l.length % 16 = 0) :
    ∀ b ∈ chunk16 l, b.length = 16 := by
  induction l using chunk16.induct with
  | case1 x1 x2 x3 x4 x5 x6 x7 x8 x9 x10 x11 x12 x13 x14 x15 x16 rest ih =>
    intro b hb
    simp only [chunk16, List.mem_cons] at hb
    rcases hb with rfl | hb2
    · rfl
    · refine ih ?_ b hb2
      simp only [List.length_cons] at h
      omega
  | case2 =>
    intro b hb
    cases hb
  | case3 l h1 h2 =>
    intro b hb
    exfalso
    match l, h1, h2 with
    | [], _, h2 => exact h2 rfl
    | c1 :: r, h1, _ =>
      have hlt : (c1 :: r).length < 16 := by
        by_contra hge
        push_neg at hge
        match c1 :: r, h1, hge with
        | y1 :: y2 :: y3 :: y4 :: y5 :: y6 :: y7 :: y8 :: y9 :: y10 :: y11 ::
            y12 :: y13 :: y14 :: y15 :: y16 :: rr, h1, _ =>
          exact h1 y1 y2 y3 y4 y5 y6 y7 y8 y9 y10 y11 y12 y13 y14 y15 y16 rr
            rfl
      simp only [List.length_cons] at hlt h
      omega

theorem encByte_invol (k : AESKey) (x : Nat) : encByte k (encByte k x) = x := by
  unfold encByte
  rw [Nat.xor_assoc, Nat.xor_self, Nat.xor_zero]

theorem zipXor_cancel (a b : List Nat) (h : a.length = b.length) :
    zipXor (zipXor a b) b = a := by
  induction a generalizing b with
  | nil => rfl
  | cons x xs ih =>
    match b with
    | [] => cases h
    | y :: ys =>
      simp only [zipXor, List.zipWith_cons_cons]
      rw [Nat.xor_assoc, Nat.xor_self, Nat.xor_zero]
      have := ih ys (by simpa using h)
      unfold zipXor at this
      rw [this]

theorem zipXor_length (a b : List Nat) :
    (zipXor a b).length = min a.length b.length := by
  simp [zipXor]

theorem cbcDec_cbcEnc (k : AESKey) (bs : List (List Nat)) :
    ∀ prev, (∀ b ∈ bs, b.length = 16) → prev.length = 16 →
      cbcDecBlocks k prev (cbcEncBlocks k prev bs) = bs := by
  induction bs with
  | nil =>
    intro prev _ _
    rfl
  | cons b bs ih =>
    intro prev hb hp
    have hblen : b.length = 16 := hb b (List.mem_cons_self _ _)
    simp only [cbcEncBlocks, cbcDecBlocks]
    have hmap : ((zipXor b prev).map (encByte k)).map (encByte k) =
        zipXor b prev := by
      rw [List.map_map]
      have : (encByte k ∘ encByte k) = (id : Nat → Nat) := by
        funext x
        simp [encByte_invol]
      rw [this, List.map_id]
    rw [hmap, zipXor_cancel b prev (by omega)]
    rw [ih _ (fun x hx => hb x (List.mem_cons_of_mem _ hx))]
    rw [List.length_map, zipXor_length]
    omega

/-- CBC round trip at the byte level. -/
theorem aesCbc_roundTrip (k : AESKey) (iv pt : List Nat) (ct : List Nat)
    (hiv : iv.length = 16) (henc : aesCbcEncrypt k iv pt = .ok ct) :
    aesCbcDecrypt k iv ct = .ok pt := by
  unfold aesCbcEncrypt at henc
  split_ifs at henc with hlen
  cases henc
  have hflat : (cbcEncBlocks k iv (chunk16 pt)).flatten.length % 16 = 0 := by
    have : ∀ (prev : List Nat) (bs : List (List Nat)),
        (∀ b ∈ bs, b.length = 16) → prev.length = 16 →
        (cbcEncBlocks k prev bs).flatten.length % 16 = 0 := by
      intro prev bs
      induction bs generalizing prev with
      | nil => intro _ _; rfl
      | cons b bs ih =>
        intro hb hp
        simp only [cbcEncBlocks, List.flatten_cons, List.length_append]
        have h1 : ((zipXor b prev).map (encByte k)).length = 16 := by
          rw [List.length_map, zipXor_length,
            hb b (List.mem_cons_self _ _), hp]
          exact min_self 16
        rw [h1]
        have h2 := ih ((zipXor b prev).map (encByte k))
          (fun x hx => hb x (List.mem_cons_of_mem _ hx)) h1
        omega
    exact this iv (chunk16 pt) (chunk16_mem_length pt (by omega)) hiv
  unfold aesCbcDecrypt
  rw [if_neg (by omega)]
  congr 1
  have hchunk : chunk16 (cbcEncBlocks k iv (chunk16 pt)).flatten =
      cbcEncBlocks k iv (chunk16 pt) := by
    have : ∀ (bs : List (List Nat)), (∀ b ∈ bs, b.length = 16) →
        chunk16 bs.flatten = bs := by
      intro bs
      induction bs with
      | nil => intro _; rfl
      | cons b bs ih =>
        intro hb
        have hblen : b.length = 16 := hb b (List.mem_cons_self _ _)
        match b, hblen with
        | [y1, y2, y3, y4, y5, y6, y7, y8, y9, y10, y11, y12, y13, y14,
            y15, y16], _ =>
          simp only [List.flatten_cons, List.cons_append, List.nil_append,
            List.append_eq, chunk16]
          rw [ih (fun x hx => hb x (List.mem_cons_of_mem _ hx))]
    refine this _ ?_
    intro b hb
    have : ∀ (prev : List Nat) (bs : List (List Nat)),
        (∀ x ∈ bs, x.length = 16) → prev.length = 16 →
        ∀ c ∈ cbcEncBlocks k prev bs, c.length = 16 := by
      intro prev bs
      induction bs generalizing prev with
      | nil =>
        intro _ _ c hc
        cases hc
      | cons x xs ih =>
        intro hx hp c hc
        have h1 : ((zipXor x prev).map (encByte k)).length = 16 := by
          rw [List.length_map, zipXor_length,
            hx x (List.mem_cons_self _ _), hp]
          exact min_self 16
        rcases List.mem_cons.1 hc with rfl | hc2
        · exact h1
        · exact ih _ (fun y hy => hx y (List.mem_cons_of_mem _ hy)) h1 c hc2
    exact this iv (chunk16 pt) (chunk16_mem_length pt (by omega)) hiv b hb
  rw [hchunk]
  rw [cbcDec_cbcEnc k (chunk16 pt) iv (chunk16_mem_length pt (by omega)) hiv]
  exact chunk16_flatten pt

/-- Flip bit `j` of byte `i`. -/
def flipBit (l : List Nat) (i j : Nat) : List Nat :=
  l.set i ((l.getD i 0) ^^^ (2 ^ j))

theorem flipBit_length (l : List Nat) (i j : Nat) :
    (flipBit l i j).length = l.length := by
  simp [flipBit]

theorem flipBit_ne (l : List Nat) (i j : Nat) (h : i < l.length) :
    flipBit l i j ≠ l := by
  intro he
  have hx : (flipBit l i j).getD i 0 = l.getD i 0 := by rw [he]
  unfold flipBit at hx
  rw [List.getD_eq_getElem?_getD, List.getElem?_set_self] at hx
  · rw [List.getD_eq_getElem?_getD] at hx
    rw [List.getElem?_eq_getElem h] at hx
    simp only [Option.map_some', Option.getD_some] at hx
    have h0 : (2 : Nat) ^ j ≠ 0 :=
      Nat.pos_iff_ne_zero.1 (Nat.pos_pow_of_pos _ (by norm_num))
    have h2 : l[i] ^^^ (l[i] ^^^ 2 ^ j) = l[i] ^^^ l[i] := by rw [hx]
    rw [← Nat.xor_assoc, Nat.xor_self, Nat.zero_xor] at h2
    exact h0 h2
  · exact h

/-! ## `models.py`: `SymmetricKey`, `Container` -/

/-- `SymmetricKey`: the persistent key material (salt, iv).  The derived-key
memoisation cache has no observable effect (salts are never mutated in
place) and is not modelled. -/
structure SymmetricKey where
  salt : List Nat
  iv : List Nat
deriving DecidableEq

/-- `Container`: id, name, data payload and own key material. -/
structure Container where
  id : Int
  name : PyStr
  data : List Nat
  key : SymmetricKey
deriving DecidableEq

/-- `Container.__eq__`: id, name and data only (key material excluded). -/
def containerEq (a b : Container) : Bool :=
  a.id == b.id && a.name == b.name && a.data == b.data

/-- `SymmetricKey.get_key_json()`: the `{"salt": .., "iv": ..}` record
(base64 transport encoding elided; it is a bijection applied at both ends). -/
structure KeyJson where
  salt : List Nat
  iv : List Nat
deriving DecidableEq

/-- The dict returned by `Container.encrypt`. -/
structure EncEntry where
  ciphertext : List Nat
  mac : MacVal
  key : KeyJson
deriving DecidableEq

/-- `Container.encrypt(password)` (models.py lines 199-224): serialize
`{"name": .., "data": ..}` (`json.dumps(..).encode('utf-8')`), pad, derive
the key, AES-CBC-encrypt under the container's iv, and MAC
`str(id).encode('utf-8') + ciphertext`. -/
def Container.encrypt (c : Container) (password : PyStr) :
    Except PyError EncEntry :=
  match utf8Dec c.data with
  | none => .error .unicodeDecodeError
  | some dataStr =>
    let plaintext := pad16 (dumpsNameData c.name dataStr)
    match generate_aes_key password c.key.salt with
    | .error e => .error e
    | .ok aesKey =>
      match aesCbcEncrypt aesKey c.key.iv plaintext with
      | .error e => .error e
      | .ok ciphertext =>
        .ok ⟨ciphertext, hmacSha256 aesKey (intToPyStr c.id ++ ciphertext),
          ⟨c.key.salt, c.key.iv⟩⟩

/-- Observable steps of `Container.from_data`, used to state the
"no decryption before the MAC comparison succeeds" ordering property. -/
inductive CEvent where
  | keyDerived
  | macChecked (ok : Bool)
  | aesDecrypted
  | unpadded
  | jsonParsed
deriving DecidableEq

/-- `Container.from_data(password, id, ciphertext, mac, salt, iv)`
(models.py lines 146-197), paired with the trace of steps it performed, in
order:

1. salt/iv length validation (`ValueError("Invalid data")`);
2. `Container(int(id))` — `int(id)` raises `ValueError` on non-numeric ids;
3. key derivation, MAC recomputation over `id.encode('utf-8') + ciphertext`
   (an id accepted by `int()` is ASCII, so its UTF-8 encoding is its
   code-point list — see `pyStrToInt_ascii`), constant-time comparison;
4. only after the comparison succeeds: AES-CBC decryption, `unpad`,
   `decode('utf-8')`, `json.loads`, `["name"]`/`["data"]` lookups and
   `set_data`'s `encode('utf-8')`. -/
def Container.from_dataT (password id : PyStr) (ciphertext : List Nat)
    (mac : MacVal) (salt iv : List Nat) :
    Except PyError Container × List CEvent :=
  if salt.length ≠ 32 ∨ iv.length ≠ 16 then
    (.error (.valueError (pyOfString "Invalid data")), [])
  else
    match pyStrToInt id with
    | none =>
      (.error (.valueError
        (pyOfString "invalid literal for int() with base 10")), [])
    | some cid =>
      match generate_aes_key password salt with
      | .error e => (.error e, [])
      | .ok aesKey =>
        if hmacSha256 aesKey (id ++ ciphertext) = mac then
          match aesCbcDecrypt aesKey iv ciphertext with
          | .error e => (.error e, [.keyDerived, .macChecked true])
          | .ok padded =>
            match unpad16 padded with
            | .error e =>
              (.error e, [.keyDerived, .macChecked true, .aesDecrypted])
            | .ok plainBytes =>
              match utf8Dec plainBytes with
              | none =>
                (.error .unicodeDecodeError,
                  [.keyDerived, .macChecked true, .aesDecrypted, .unpadded])
              | some plainStr =>
                match jsonLoads plainStr with
                | none =>
                  (.error .jsonDecodeError,
                    [.keyDerived, .macChecked true, .aesDecrypted, .unpadded])
                | some obj =>
                  match dictGet obj (pyOfString "name") with
                  | none =>
                    (.error (.keyError (pyOfString "name")),
                      [.keyDerived, .macChecked true, .aesDecrypted,
                        .unpadded, .jsonParsed])
                  | some nm =>
                    match dictGet obj (pyOfString "data") with
                    | none =>
                      (.error (.keyError (pyOfString "data")),
                        [.keyDerived, .macChecked true, .aesDecrypted,
                          .unpadded, .jsonParsed])
                    | some dstr =>
                      match utf8Enc dstr with
                      | none =>
                        (.error .unicodeEncodeError,
                          [.keyDerived, .macChecked true, .aesDecrypted,
                            .unpadded, .jsonParsed])
                      | some db =>
                        (.ok ⟨cid, nm, db, ⟨salt, iv⟩⟩,
                          [.keyDerived, .macChecked true, .aesDecrypted,
                            .unpadded, .jsonParsed])
        else
          (.error (.loadContainerError
            (pyOfString "Integrity Error: Invalid container MAC for container "
              ++ id ++
              pyOfString ".\nThe container may have been tampered with.")),
            [.keyDerived, .macChecked false])

/-- `Container.from_data`, result only. -/
def Container.from_data (password id : PyStr) (ciphertext : List Nat)
    (mac : MacVal) (salt iv : List Nat) : Except PyError Container :=
  (Container.from_dataT password id ciphertext mac salt iv).1

/-- An id string accepted by `int()` is ASCII, so `id.encode('utf-8')` is
its code-point list (justifies using the code points directly as the MAC
message bytes). -/
theorem pyStrToInt_ascii (s : PyStr) (i : Int) (h : pyStrToInt s = some i) :
    utf8Enc s = some s := by
  have hall : ∀ c ∈ s, c < 0x80 := by
    match s with
    | [] => intro c hc; cases hc
    | c0 :: rest =>
      rw [pyStrToInt] at h
      have hdv : ∀ (l : PyStr) (v : Nat), digitsValue l = some v →
          ∀ c ∈ l, c < 0x80 := by
        intro l v hl c hc
        unfold digitsValue at hl
        split_ifs at hl with hcnd
        have := hcnd.2 c hc
        omega
      split_ifs at h with h1 h2
      · match hdv2 : digitsValue rest with
        | none => rw [hdv2] at h; cases h
        | some v =>
          intro c hc
          rcases List.mem_cons.1 hc with rfl | hc2
          · omega
          · exact hdv _ _ hdv2 c hc2
      · match hdv2 : digitsValue rest with
        | none => rw [hdv2] at h; cases h
        | some v =>
          intro c hc
          rcases List.mem_cons.1 hc with rfl | hc2
          · omega
          · exact hdv _ _ hdv2 c hc2
      · match hdv2 : digitsValue (c0 :: rest) with
        | none => rw [hdv2] at h; cases h
        | some v => exact hdv _ _ hdv2
  exact utf8Enc_ascii s hall

/-! ## `models.py`: `Vault` -/

/-- Python string `<` (lexicographic by code point), as used by `sorted` on
the id keys of the containers dict. -/
def pyStrLt : PyStr → PyStr → Bool
  | [], [] => false
  | [], _ :: _ => true
  | _ :: _, [] => false
  | a :: as2, b :: bs2 =>
    if a < b then true else if b < a then false else pyStrLt as2 bs2

/-- `sorted(enc_containers.items())`: the keys of a dict are distinct, so
Python's tuple sort orders by the key string. -/
def sortByKey (l : List (PyStr × EncEntry)) : List (PyStr × EncEntry) :=
  List.insertionSort (fun p q => pyStrLt p.1 q.1 = true) l

/-- Short-circuiting `map` over `Except`, modelling a Python list
comprehension in which each element may raise. -/
def exceptMapM (f : α → Except PyError β) : List α → Except PyError (List β)
  | [] => .ok []
  | x :: xs =>
    match f x with
    | .error e => .error e
    | .ok y => (exceptMapM f xs).map (fun ys => y :: ys)

/-- Python dict assignment `d[k] = v` on an association list: replace in
place if the key exists, else append. -/
def assocSet : List (Int × Container) → Int → Container →
    List (Int × Container)
  | [], k, c => [(k, c)]
  | (k0, c0) :: rest, k, c =>
    if k0 = k then (k0, c) :: rest else (k0, c0) :: assocSet rest k c

/-- `{c.get_id(): c for c in containers}`: left-to-right dict build,
first-occurrence position, last-occurrence value. -/
def dictOfPairs (l : List (Int × Container)) : List (Int × Container) :=
  l.foldl (fun acc p => assocSet acc p.1 p.2) []

def lookupStr (l : List (PyStr × EncEntry)) (k : PyStr) : Option EncEntry :=
  (l.find? (fun p => p.1 == k)).map (fun p => p.2)

/-- The persisted vault document (after JSON parsing and base64 decoding):
`{"containers": {id: entry}, "key": {salt, iv}, "mac": vaultMac}`. -/
structure VaultDoc where
  containers : List (PyStr × EncEntry)
  key : KeyJson
  mac : VaultMacVal
deriving DecidableEq

/-- `Vault`: own key material, visible (non-negative id) and reserved
(negative id) containers, master password.  The cloud handle is outside the
model. -/
structure Vault where
  key : SymmetricKey
  containers : List (Int × Container)
  hidden_containers : List (Int × Container)
  master_password : PyStr
deriving DecidableEq

/-- `Vault.encrypt()` (models.py lines 334-357): encrypt every container
(visible ∪ hidden), then MAC the concatenation of the per-container MAC
hex strings in string-sorted-by-id order under the vault key. -/
def Vault.encrypt (v : Vault) : Except PyError VaultDoc :=
  let all := v.containers ++ v.hidden_containers
  match exceptMapM (fun p => (Container.encrypt p.2 v.master_password).map
      (fun e => (intToPyStr p.1, e))) all with
  | .error e => .error e
  | .ok enc_containers =>
    match generate_aes_key v.master_password v.key.salt with
    | .error e => .error e
    | .ok vaultKey =>
      let container_macs := (sortByKey enc_containers).map (fun p => p.2.mac)
      .ok ⟨enc_containers, ⟨v.key.salt, v.key.iv⟩,
        vaultHmac vaultKey container_macs⟩

/-- The vault MAC recomputed during `Vault.load_from_file` (models.py lines
435-441): keyed by the key derived from the document's salt, over the MAC
values stored in the document, in string-sorted-by-id order. -/
def loadRecomputedMac (master_password : PyStr) (doc : VaultDoc) :
    Except PyError VaultMacVal :=
  match generate_aes_key master_password doc.key.salt with
  | .error e => .error e
  | .ok vaultKey =>
    .ok (vaultHmac vaultKey ((sortByKey doc.containers).map (fun p => p.2.mac)))

/-- The body of the big `try` in `Vault.load_from_file` (models.py lines
412-454): decrypt every entry, validate the vault salt/iv lengths,
recompute and compare the vault MAC, then split the decrypted containers
by id sign. -/
def loadInner (master_password : PyStr) (doc : VaultDoc) :
    Except PyError Vault :=
  match exceptMapM (fun p => Container.from_data master_password p.1
      p.2.ciphertext p.2.mac p.2.key.salt p.2.key.iv) doc.containers with
  | .error e => .error e
  | .ok containers =>
    if doc.key.salt.length ≠ 32 ∨ doc.key.iv.length ≠ 16 then
      .error (.loadVaultError
        (pyOfString "Could not load vault: Invalid salt or iv"))
    else
      match loadRecomputedMac master_password doc with
      | .error e => .error e
      | .ok computed_mac =>
        if computed_mac ≠ doc.mac then
          .error (.loadVaultError (pyOfString
            "Integrity Error: Invalid vault MAC.\nThe vault may have been tampered with."))
        else
          let containers_map := dictOfPairs (containers.map (fun c => (c.id, c)))
          .ok ⟨⟨doc.key.salt, doc.key.iv⟩,
            containers_map.filter (fun p => decide (0 ≤ p.1)),
            containers_map.filter (fun p => decide (p.1 < 0)),
            master_password⟩

/-- `Vault.load_from_file` (models.py lines 395-461), from the parsed
document onward: `LoadVaultError` is re-raised as is; every other exception
(including a container's `LoadContainerError`) is replaced by the generic
`LoadVaultError`. -/
def Vault.load_from_file (master_password : PyStr) (doc : VaultDoc) :
    Except PyError Vault :=
  match loadInner master_password doc with
  | .ok v => .ok v
  | .error (.loadVaultError m) => .error (.loadVaultError m)
  | .error _ =>
    .error (.loadVaultError (pyOfString
      "Could not load vault: Password may be incorrect or the file may have been tampered with."))

/-- `Vault.fetch_container(id, password, path)` (models.py lines 359-393),
from the parsed document onward: look the id up in the containers dict and
decrypt that one entry; any failure (missing id, `LoadContainerError`,
malformed input, ...) is caught and re-raised as `LoadVaultError`. -/
def Vault.fetch_container (id : PyStr) (password : PyStr) (doc : VaultDoc) :
    Except PyError Container :=
  let inner : Except PyError Container :=
    match lookupStr doc.containers id with
    | none => .error (.keyError id)
    | some e => Container.from_data password id e.ciphertext e.mac
        e.key.salt e.key.iv
  match inner with
  | .ok c => .ok c
  | .error _ =>
    .error (.loadVaultError
      (pyOfString "There was an error fetching the container with ID " ++ id))

/-! ## Randomness (`Random.new().read`) and the mutating operations -/

/-- The entropy stream: byte `e i` is the `i`-th random byte the process
draws. -/
abbrev Entropy := Nat → Nat

def readBytes (e : Entropy) (pos n : Nat) : List Nat :=
  (List.range n).map (fun i => e (pos + i) % 256)

/-- `SymmetricKey()`: fresh random salt (32 bytes) and iv (16 bytes). -/
def SymmetricKey.fresh (e : Entropy) (pos : Nat) : SymmetricKey × Nat :=
  (⟨readBytes e pos 32, readBytes e (pos + 32) 16⟩, pos + 48)

def freshKeys (e : Entropy) : List (Int × Container) → Nat →
    List (Int × Container) × Nat
  | [], pos => ([], pos)
  | (i, c) :: rest, pos =>
    let (k, pos2) := SymmetricKey.fresh e pos
    let (rest2, pos3) := freshKeys e rest pos2
    ((i, { c with key := k }) :: rest2, pos3)

/-- `Vault.regenerate_keys` (models.py lines 539-547): a fresh
`SymmetricKey` for the vault and for every container, visible and hidden. -/
def Vault.regenerate_keys (v : Vault) (e : Entropy) (pos : Nat) :
    Vault × Nat :=
  let (vk, p1) := SymmetricKey.fresh e pos
  let (cs, p2) := freshKeys e v.containers p1
  let (hs, p3) := freshKeys e v.hidden_containers p2
  ({ v with key := vk, containers := cs, hidden_containers := hs }, p3)

/-- `Vault.set_master_password` (models.py lines 528-537): replace the
master password (the cloud handle is outside the model), then regenerate
every key. -/
def Vault.set_master_password (v : Vault) (password : PyStr) (e : Entropy)
    (pos : Nat) : Vault × Nat :=
  Vault.regenerate_keys { v with master_password := password } e pos

/-- The process-wide id allocator (`Container.next_id`, models.py lines
79-92) together with the multiset of ids of every container constructed so
far in the process. -/
structure IdGen where
  next_id : Int
  constructed : List Int
deriving DecidableEq

/-- `Container.__init__(id)`: explicit ids are taken as given; `None` takes
the current watermark; either way the watermark rises past the new id. -/
def Container.init (idOpt : Option Int) (g : IdGen) : Int × IdGen :=
  let i := idOpt.getD g.next_id
  (i, ⟨max g.next_id (i + 1), i :: g.constructed⟩)

/-- `Vault.add_container(name, data)` (models.py lines 265-278): a fresh
container (auto-allocated id, fresh key material), the empty-name default,
`set_data`'s UTF-8 encoding, then insertion into the containers dict. -/
def Vault.add_container (v : Vault) (name data : PyStr) (g : IdGen)
    (e : Entropy) (pos : Nat) :
    Except PyError (Container × Vault) × IdGen × Nat :=
  let (i, g2) := Container.init none g
  let (k, pos2) := SymmetricKey.fresh e pos
  let name2 := if name = [] then pyOfString "Container " ++ intToPyStr i
    else name
  match utf8Enc data with
  | none => (.error .unicodeEncodeError, g2, pos2)
  | some db =>
    let c : Container := ⟨i, name2, db, k⟩
    (.ok (c, { v with containers := assocSet v.containers i c }), g2, pos2)

/-- `Vault.remove_container(id)` (models.py lines 280-291). -/
def Vault.remove_container (v : Vault) (i : Int) : Except PyError Vault :=
  if (v.containers.find? (fun p => p.1 == i)).isSome then
    .ok { v with containers := v.containers.filter (fun p => p.1 != i) }
  else
    .error (.keyError (pyOfString "Could not delete: Container with ID "
      ++ intToPyStr i ++ pyOfString " not found"))

theorem generate_aes_key_ok (p : PyStr) (s : List Nat) (k : AESKey)
    (h : generate_aes_key p s = .ok k) : k = ⟨p, s⟩ := by
  unfold generate_aes_key at h
  match he : utf8Enc p with
  | none => rw [he] at h; cases h
  | some bs =>
    rw [he] at h
    cases h
    rfl

theorem dictGet_name (nm dv : PyStr) :
    dictGet [(pyOfString "name", nm), (pyOfString "data", dv)]
      (pyOfString "name") = some nm := by
  unfold dictGet
  simp only [List.reverse_cons, List.reverse_nil, List.nil_append,
    List.cons_append, List.find?]
  rw [show ((pyOfString "data" == pyOfString "name") = false) from rfl]
  rw [show ((pyOfString "name" == pyOfString "name") = true) from rfl]
  rfl

theorem dictGet_data (nm dv : PyStr) :
    dictGet [(pyOfString "name", nm), (pyOfString "data", dv)]
      (pyOfString "data") = some dv := by
  unfold dictGet
  simp only [List.reverse_cons, List.reverse_nil, List.nil_append,
    List.cons_append, List.find?]
  rw [show ((pyOfString "data" == pyOfString "data") = true) from rfl]
  rfl

/-- The container round trip: decrypting the output of
`Container.encrypt` with the same password recovers the id, name, data and
key material exactly. -/
theorem container_roundTrip (c : Container) (pw : PyStr) (out : EncEntry)
    (hsalt : c.key.salt.length = 32) (hiv : c.key.iv.length = 16)
    (hn1 : PyWf c.name) (hn2 : NoSurrogates c.name)
    (henc : Container.encrypt c pw = .ok out) :
    Container.from_data pw (intToPyStr c.id) out.ciphertext out.mac
      out.key.salt out.key.iv =
      .ok ⟨c.id, c.name, c.data, ⟨c.key.salt, c.key.iv⟩⟩ := by
  unfold Container.encrypt at henc
  match hdec : utf8Dec c.data with
  | none => rw [hdec] at henc; cases henc
  | some dataStr =>
    rw [hdec] at henc
    dsimp only at henc
    match hkey : generate_aes_key pw c.key.salt with
    | .error e => rw [hkey] at henc; cases henc
    | .ok k =>
      rw [hkey] at henc
      dsimp only at henc
      obtain rfl := generate_aes_key_ok _ _ _ hkey
      match hct : aesCbcEncrypt ⟨pw, c.key.salt⟩ c.key.iv
          (pad16 (dumpsNameData c.name dataStr)) with
      | .error e => rw [hct] at henc; cases henc
      | .ok ct =>
        rw [hct] at henc
        dsimp only at henc
        rw [Except.ok.injEq] at henc
        subst henc
        dsimp only
        have hdata_enc : utf8Enc dataStr = some c.data :=
          utf8Enc_utf8Dec _ _ hdec
        obtain ⟨hd1, hd2⟩ := utf8Enc_wf _ _ hdata_enc
        unfold Container.from_data Container.from_dataT
        rw [if_neg (by omega)]
        rw [pyStrToInt_intToPyStr]
        dsimp only
        rw [hkey]
        dsimp only
        rw [if_pos rfl]
        rw [aesCbc_roundTrip _ _ _ _ hiv hct]
        dsimp only
        rw [unpad16_pad16]
        dsimp only
        rw [utf8Dec_ascii _ (dumpsNameData_ascii _ _)]
        dsimp only
        rw [jsonLoads_dumpsNameData _ _ hn1 hn2 hd1 hd2]
        dsimp only
        rw [dictGet_name]
        dsimp only
        rw [dictGet_data]
        dsimp only
        rw [hdata_enc]

/-! ## Shared lemmas about the model -/

/-- The exact integrity-error message of `Container.from_data`. -/
def containerMacMsg (id : PyStr) : PyStr :=
  pyOfString "Integrity Error: Invalid container MAC for container " ++ id ++
    pyOfString ".\nThe container may have been tampered with."

/-- On a MAC mismatch (with valid salt/iv lengths, a parseable id and an
encodable password), `Container.from_data` stops with `LoadContainerError`
naming the id, and the trace shows no decryption or unpadding. -/
theorem from_data_macFail (pw id : PyStr) (ct : List Nat) (mac : MacVal)
    (salt iv : List Nat) (cid : Int) (bs : List Nat)
    (hs : salt.length = 32) (hi : iv.length = 16)
    (hid : pyStrToInt id = some cid) (hpw : utf8Enc pw = some bs)
    (hmm : hmacSha256 ⟨pw, salt⟩ (id ++ ct) ≠ mac) :
    Container.from_dataT pw id ct mac salt iv =
      (.error (.loadContainerError (containerMacMsg id)),
        [.keyDerived, .macChecked false]) := by
  unfold Container.from_dataT
  rw [if_neg (by omega)]
  rw [hid]
  dsimp only
  have hkey : generate_aes_key pw salt = .ok ⟨pw, salt⟩ := by
    unfold generate_aes_key
    rw [hpw]
  rw [hkey]
  dsimp only
  rw [if_neg hmm]
  rfl

theorem readBytes_length (e : Entropy) (pos n : Nat) :
    (readBytes e pos n).length = n := by
  simp [readBytes]

/-- `Container.encrypt` succeeds whenever the data payload decodes and the
password encodes; the result's key material is the container's, and its MAC
is over `str(id) ++ ciphertext` under the derived key. -/
theorem Container.encrypt_ok (c : Container) (pw : PyStr) (ds bs : List Nat)
    (hdata : utf8Dec c.data = some ds) (hpw : utf8Enc pw = some bs) :
    ∃ out, Container.encrypt c pw = .ok out ∧
      out.key.salt = c.key.salt ∧ out.key.iv = c.key.iv ∧
      out.mac = hmacSha256 ⟨pw, c.key.salt⟩ (intToPyStr c.id ++ out.ciphertext) := by
  unfold Container.encrypt
  rw [hdata]
  dsimp only
  have hkey : generate_aes_key pw c.key.salt = .ok ⟨pw, c.key.salt⟩ := by
    unfold generate_aes_key
    rw [hpw]
  rw [hkey]
  dsimp only
  have henc : aesCbcEncrypt ⟨pw, c.key.salt⟩ c.key.iv
      (pad16 (dumpsNameData c.name ds)) =
      .ok (cbcEncBlocks ⟨pw, c.key.salt⟩ c.key.iv
        (chunk16 (pad16 (dumpsNameData c.name ds)))).flatten := by
    unfold aesCbcEncrypt
    rw [if_neg (by simp only [pad16_length]; omega)]
  rw [henc]
  exact ⟨_, rfl, rfl, rfl, rfl⟩

theorem exceptMapM_cons_error (f : α → Except PyError β) (x : α) (xs : List α)
    (e : PyError) (h : f x = .error e) :
    exceptMapM f (x :: xs) = .error e := by
  unfold exceptMapM
  rw [h]

/-- `Forall₂`-style specification of a successful `exceptMapM`. -/
theorem exceptMapM_ok_of_forall (f : α → Except PyError β) (l : List α)
    (g : α → β) (h : ∀ x ∈ l, f x = .ok (g x)) :
    exceptMapM f l = .ok (l.map g) := by
  induction l with
  | nil => rfl
  | cons x xs ih =>
    unfold exceptMapM
    rw [h x (List.mem_cons_self _ _), ih (fun y hy => h y (List.mem_cons_of_mem _ hy))]
    rfl

theorem exceptMapM_length (f : α → Except PyError β) (l : List α)
    (out : List β) (h : exceptMapM f l = .ok out) : out.length = l.length := by
  induction l generalizing out with
  | nil =>
    unfold exceptMapM at h
    cases h
    rfl
  | cons x xs ih =>
    unfold exceptMapM at h
    match hf : f x with
    | .error e => rw [hf] at h; cases h
    | .ok y =>
      rw [hf] at h
      dsimp only at h
      match hm : exceptMapM f xs with
      | .error e => rw [hm] at h; cases h
      | .ok ys =>
        rw [hm] at h
        cases h
        simp only [List.length_cons]
        rw [ih ys hm]

theorem map_orderedInsert {α β : Type} (f : α → β) (r : α → α → Prop)
    (r2 : β → β → Prop) [DecidableRel r] [DecidableRel r2]
    (hf : ∀ a b, r a b ↔ r2 (f a) (f b)) (a : α) (l : List α) :
    (List.orderedInsert r a l).map f =
      List.orderedInsert r2 (f a) (l.map f) := by
  induction l with
  | nil => rfl
  | cons b t ih =>
    simp only [List.orderedInsert, List.map_cons]
    by_cases h : r a b
    · rw [if_pos h, if_pos ((hf a b).1 h)]
      rfl
    · rw [if_neg h, if_neg (fun h2 => h ((hf a b).2 h2))]
      rw [List.map_cons, ih]

theorem map_insertionSort {α β : Type} (f : α → β) (r : α → α → Prop)
    (r2 : β → β → Prop) [DecidableRel r] [DecidableRel r2]
    (hf : ∀ a b, r a b ↔ r2 (f a) (f b)) (l : List α) :
    (List.insertionSort r l).map f = List.insertionSort r2 (l.map f) := by
  induction l with
  | nil => rfl
  | cons b t ih =>
    simp only [List.insertionSort, List.map_cons]
    rw [map_orderedInsert f r r2 hf, ih]

theorem assocSet_append_fresh (l : List (Int × Container)) (k : Int)
    (c : Container) (h : k ∉ l.map Prod.fst) :
    assocSet l k c = l ++ [(k, c)] := by
  induction l with
  | nil => rfl
  | cons p t ih =>
    simp only [List.map_cons, List.mem_cons] at h
    push_neg at h
    simp only [assocSet]
    rw [if_neg (fun he => h.1 he.symm)]
    rw [ih h.2]
    rfl

theorem foldl_assocSet_fresh (l acc : List (Int × Container))
    (hfresh : ∀ k ∈ l.map Prod.fst, k ∉ acc.map Prod.fst)
    (hnodup : (l.map Prod.fst).Nodup) :
    l.foldl (fun a p => assocSet a p.1 p.2) acc = acc ++ l := by
  induction l generalizing acc with
  | nil => simp
  | cons p t ih =>
    simp only [List.foldl_cons]
    rw [assocSet_append_fresh acc p.1 p.2 (hfresh p.1 (by simp))]
    simp only [List.map_cons, List.nodup_cons] at hnodup
    rw [ih (acc ++ [(p.1, p.2)]) ?fresh hnodup.2]
    · simp
    case fresh =>
      intro k hk
      simp only [List.map_append, List.mem_append, List.map_cons,
        List.map_nil, List.mem_singleton]
      push_neg
      refine ⟨hfresh k (by simp [hk]), fun he => hnodup.1 (he ▸ hk)⟩

theorem dictOfPairs_nodup (l : List (Int × Container))
    (h : (l.map Prod.fst).Nodup) : dictOfPairs l = l := by
  unfold dictOfPairs
  have := foldl_assocSet_fresh l [] (by intro k _ hk; cases hk) h
  simpa using this

/-- Every failure of `Vault.load_from_file` is a `LoadVaultError`. -/
theorem load_from_file_error_class (mpw : PyStr) (doc : VaultDoc) :
    (∃ v, Vault.load_from_file mpw doc = .ok v) ∨
      (∃ m, Vault.load_from_file mpw doc = .error (.loadVaultError m)) := by
  unfold Vault.load_from_file
  match loadInner mpw doc with
  | .ok v => exact Or.inl ⟨v, rfl⟩
  | .error (.loadVaultError m) => exact Or.inr ⟨m, rfl⟩
  | .error (.valueError m) => exact Or.inr ⟨_, rfl⟩
  | .error (.loadContainerError m) => exact Or.inr ⟨_, rfl⟩
  | .error (.keyError m) => exact Or.inr ⟨_, rfl⟩
  | .error .unicodeDecodeError => exact Or.inr ⟨_, rfl⟩
  | .error .unicodeEncodeError => exact Or.inr ⟨_, rfl⟩
  | .error .jsonDecodeError => exact Or.inr ⟨_, rfl⟩

/-- A successful load passed the vault-MAC comparison: the MAC recomputed
from the stored per-container MACs equals the stored vault MAC. -/
theorem load_ok_mac (mpw : PyStr) (doc : VaultDoc) (v : Vault)
    (h : Vault.load_from_file mpw doc = .ok v) :
    loadRecomputedMac mpw doc = .ok doc.mac := by
  unfold Vault.load_from_file at h
  match hi : loadInner mpw doc with
  | .error e =>
    rw [hi] at h
    match e with
    | .loadVaultError m => cases h
    | .valueError m => cases h
    | .loadContainerError m => cases h
    | .keyError m => cases h
    | .unicodeDecodeError => cases h
    | .unicodeEncodeError => cases h
    | .jsonDecodeError => cases h
  | .ok v2 =>
    unfold loadInner at hi
    match hm : exceptMapM (fun p => Container.from_data mpw p.1
        p.2.ciphertext p.2.mac p.2.key.salt p.2.key.iv) doc.containers with
    | .error e => rw [hm] at hi; cases hi
    | .ok cs =>
      rw [hm] at hi
      dsimp only at hi
      split_ifs at hi with h1
      match hr : loadRecomputedMac mpw doc with
      | .error e => rw [hr] at hi; cases hi
      | .ok computed =>
        rw [hr] at hi
        dsimp only at hi
        split_ifs at hi with h2
        push_neg at h2
        rw [h2]

/-- The number of per-container MACs in the recomputed vault MAC equals the
number of entries in the document. -/
theorem loadRecomputedMac_length (mpw : PyStr) (doc : VaultDoc)
    (M : VaultMacVal) (h : loadRecomputedMac mpw doc = .ok M) :
    M.macs.length = doc.containers.length := by
  unfold loadRecomputedMac at h
  match hk : generate_aes_key mpw doc.key.salt with
  | .error e => rw [hk] at h; cases h
  | .ok k =>
    rw [hk] at h
    cases h
    simp only [vaultHmac, List.length_map, sortByKey]
    exact List.length_insertionSort _ _

/-- Inversion of a successful `Container.encrypt`: the password was
encodable, the entry carries the container's own salt and iv, and the MAC is
over `str(id).encode() + ciphertext` under the derived key. -/
theorem encrypt_ok_inv (c : Container) (pw : PyStr) (out : EncEntry)
    (h : Container.encrypt c pw = .ok out) :
    (∃ bs, utf8Enc pw = some bs) ∧
      out.key.salt = c.key.salt ∧ out.key.iv = c.key.iv ∧
      out.mac = hmacSha256 ⟨pw, c.key.salt⟩ (intToPyStr c.id ++ out.ciphertext) := by
  unfold Container.encrypt at h
  match hd : utf8Dec c.data with
  | none => rw [hd] at h; cases h
  | some ds =>
    rw [hd] at h
    dsimp only at h
    match hk : generate_aes_key pw c.key.salt with
    | .error e => rw [hk] at h; cases h
    | .ok k =>
      rw [hk] at h
      dsimp only at h
      obtain rfl := generate_aes_key_ok _ _ _ hk
      have hbs : ∃ bs, utf8Enc pw = some bs := by
        unfold generate_aes_key at hk
        match he : utf8Enc pw with
        | none => rw [he] at hk; cases hk
        | some bs => exact ⟨bs, rfl⟩
      match hc : aesCbcEncrypt ⟨pw, c.key.salt⟩ c.key.iv
          (pad16 (dumpsNameData c.name ds)) with
      | .error e => rw [hc] at h; cases h
      | .ok ct =>
        rw [hc] at h
        dsimp only at h
        rw [Except.ok.injEq] at h
        subst h
        exact ⟨hbs, rfl, rfl, rfl⟩

/-- Inversion of a successful `Vault.encrypt`: the password was encodable,
the document carries the vault's salt and iv, its entries are the
entry-by-entry encryption of all containers, and its vault MAC is over the
per-entry MACs in string-sorted-by-id order under the vault key. -/
theorem vault_encrypt_inv (v : Vault) (doc : VaultDoc)
    (h : Vault.encrypt v = .ok doc) :
    (∃ bs, utf8Enc v.master_password = some bs) ∧
      doc.key = ⟨v.key.salt, v.key.iv⟩ ∧
      exceptMapM (fun p => (Container.encrypt p.2 v.master_password).map
        (fun en => (intToPyStr p.1, en)))
        (v.containers ++ v.hidden_containers) = .ok doc.containers ∧
      doc.mac = vaultHmac ⟨v.master_password, v.key.salt⟩
        ((sortByKey doc.containers).map (fun p => p.2.mac)) := by
  unfold Vault.encrypt at h
  dsimp only at h
  match hm : exceptMapM (fun p => (Container.encrypt p.2 v.master_password).map
      (fun en => (intToPyStr p.1, en))) (v.containers ++ v.hidden_containers) with
  | .error e => rw [hm] at h; cases h
  | .ok enc =>
    rw [hm] at h
    dsimp only at h
    match hk : generate_aes_key v.master_password v.key.salt with
    | .error e => rw [hk] at h; cases h
    | .ok k =>
      rw [hk] at h
      dsimp only at h
      obtain rfl := generate_aes_key_ok _ _ _ hk
      have hbs : ∃ bs, utf8Enc v.master_password = some bs := by
        unfold generate_aes_key at hk
        match he : utf8Enc v.master_password with
        | none => rw [he] at hk; cases hk
        | some bs => exact ⟨bs, rfl⟩
      rw [Except.ok.injEq] at h
      subst h
      exact ⟨hbs, rfl, hm, rfl⟩

theorem exceptMapM_append_error (f : α → Except PyError β) (l1 : List α)
    (p : α) (l2 : List α) (e : PyError)
    (hok : ∀ q ∈ l1, ∃ y, f q = .ok y) (hf : f p = .error e) :
    exceptMapM f (l1 ++ p :: l2) = .error e := by
  induction l1 with
  | nil =>
    simp only [List.nil_append]
    exact exceptMapM_cons_error f p l2 e hf
  | cons q t ih =>
    obtain ⟨y, hy⟩ := hok q (List.mem_cons_self _ _)
    simp only [List.cons_append]
    unfold exceptMapM
    rw [hy]
    dsimp only
    rw [ih (fun r hr => hok r (List.mem_cons_of_mem _ hr))]
    rfl

theorem exceptMapM_ok_of_forall_ex (f : α → Except PyError β) (l : List α)
    (h : ∀ x ∈ l, ∃ y, f x = .ok y) : ∃ out, exceptMapM f l = .ok out := by
  induction l with
  | nil => exact ⟨[], rfl⟩
  | cons x xs ih =>
    obtain ⟨y, hy⟩ := h x (List.mem_cons_self _ _)
    obtain ⟨ys, hys⟩ := ih (fun r hr => h r (List.mem_cons_of_mem _ hr))
    refine ⟨y :: ys, ?_⟩
    unfold exceptMapM
    rw [hy, hys]
    rfl

/-- If the `try` body of `Vault.load_from_file` cannot succeed, the whole
call fails with some `LoadVaultError`. -/
theorem load_from_file_of_inner_error (mpw : PyStr) (doc : VaultDoc)
    (h : ∀ v2, loadInner mpw doc ≠ .ok v2) :
    ∃ m, Vault.load_from_file mpw doc = .error (.loadVaultError m) := by
  unfold Vault.load_from_file
  match hi : loadInner mpw doc with
  | .ok v2 => exact absurd hi (h v2)
  | .error (.loadVaultError m) => exact ⟨m, rfl⟩
  | .error (.valueError m) => exact ⟨_, rfl⟩
  | .error (.loadContainerError m) => exact ⟨_, rfl⟩
  | .error (.keyError m) => exact ⟨_, rfl⟩
  | .error .unicodeDecodeError => exact ⟨_, rfl⟩
  | .error .unicodeEncodeError => exact ⟨_, rfl⟩
  | .error .jsonDecodeError => exact ⟨_, rfl⟩

theorem load_from_file_ok_inner (mpw : PyStr) (doc : VaultDoc) (v2 : Vault)
    (h : Vault.load_from_file mpw doc = .ok v2) : loadInner mpw doc = .ok v2 := by
  unfold Vault.load_from_file at h
  match hi : loadInner mpw doc with
  | .ok w => rw [hi] at h; cases h; rfl
  | .error (.loadVaultError m) => rw [hi] at h; cases h
  | .error (.valueError m) => rw [hi] at h; cases h
  | .error (.loadContainerError m) => rw [hi] at h; cases h
  | .error (.keyError m) => rw [hi] at h; cases h
  | .error .unicodeDecodeError => rw [hi] at h; cases h
  | .error .unicodeEncodeError => rw [hi] at h; cases h
  | .error .jsonDecodeError => rw [hi] at h; cases h

/-- Loading a saved vault under a different master password always fails
(with a `LoadVaultError`): a successful load would force the recomputed
vault MAC, keyed by the offered password, to equal the stored one, whose
key holds the encrypting password. -/
theorem load_wrong_password (v : Vault) (doc : VaultDoc) (old : PyStr)
    (henc : Vault.encrypt v = .ok doc) (hne : old ≠ v.master_password) :
    ∃ m, Vault.load_from_file old doc = .error (.loadVaultError m) := by
  rcases load_from_file_error_class old doc with ⟨w, hw⟩ | ⟨m, hm⟩
  · exfalso
    have hmac := load_ok_mac old doc w hw
    unfold loadRecomputedMac at hmac
    match hk : generate_aes_key old doc.key.salt with
    | .error e => rw [hk] at hmac; cases hmac
    | .ok k =>
      rw [hk] at hmac
      obtain rfl := generate_aes_key_ok _ _ _ hk
      rw [Except.ok.injEq] at hmac
      obtain ⟨_, _, _, hdm⟩ := vault_encrypt_inv v doc henc
      rw [hdm] at hmac
      simp only [vaultHmac, VaultMacVal.mk.injEq, AESKey.mk.injEq] at hmac
      exact hne hmac.1.1
  · exact ⟨m, hm⟩

/-- The observable content of a vault dictionary entry: outer key, id,
name, data. -/
def cinfo (p : Int × Container) : Int × Int × PyStr × List Nat :=
  (p.1, p.2.id, p.2.name, p.2.data)

theorem cinfo_map_fst (l1 l2 : List (Int × Container))
    (h : l1.map cinfo = l2.map cinfo) : l1.map Prod.fst = l2.map Prod.fst := by
  have h2 := congrArg (List.map (fun x : Int × Int × PyStr × List Nat => x.1)) h
  rw [List.map_map, List.map_map] at h2
  exact h2

/-- `regenerate_keys`'s worker: ids, names and data are untouched; every
key is replaced by a key read from the entropy stream at or past `pos`;
each output entry corresponds to an input entry. -/
theorem freshKeys_spec (e : Entropy) (l : List (Int × Container)) (pos : Nat) :
    ((freshKeys e l pos).1).map cinfo = l.map cinfo ∧
    (∀ p ∈ (freshKeys e l pos).1,
      ∃ q, pos ≤ q ∧ p.2.key = ⟨readBytes e q 32, readBytes e (q + 32) 16⟩) ∧
    (∀ p2 ∈ (freshKeys e l pos).1, ∃ p ∈ l, p2.1 = p.1 ∧ p2.2.id = p.2.id ∧
      p2.2.name = p.2.name ∧ p2.2.data = p.2.data) ∧
    pos ≤ (freshKeys e l pos).2 := by
  induction l generalizing pos with
  | nil =>
    refine ⟨rfl, ?_, ?_, Nat.le_refl _⟩
    · intro p hp; cases hp
    · intro p hp; cases hp
  | cons hd t ih =>
    match hd with
    | (i, c) =>
      obtain ⟨ih1, ih2, ih3, ih4⟩ := ih (pos + 48)
      simp only [freshKeys, SymmetricKey.fresh]
      refine ⟨?_, ?_, ?_, ?_⟩
      · simp only [List.map_cons, ih1, cinfo]
      · intro p hp
        rcases List.mem_cons.1 hp with he | ht
        · subst he
          exact ⟨pos, Nat.le_refl _, rfl⟩
        · obtain ⟨q, hq1, hq2⟩ := ih2 p ht
          exact ⟨q, by omega, hq2⟩
      · intro p hp
        rcases List.mem_cons.1 hp with he | ht
        · subst he
          exact ⟨(i, c), List.mem_cons_self _ _, rfl, rfl, rfl, rfl⟩
        · obtain ⟨q, hq1, hq2⟩ := ih3 p ht
          exact ⟨q, List.mem_cons_of_mem _ hq1, hq2⟩
      · omega

/-- Per-entry well-formedness of a vault's container dictionary: the key
equals the container's id, the key material has the generated lengths, and
the name survives the JSON round trip. -/
def EntryWf (p : Int × Container) : Prop :=
  p.1 = p.2.id ∧ p.2.key.salt.length = 32 ∧ p.2.key.iv.length = 16 ∧
    PyWf p.2.name ∧ NoSurrogates p.2.name

theorem except_map_ok {α β : Type} (f : α → β) (a : α) :
    Except.map f (Except.ok a : Except PyError α) = .ok (f a) := rfl

theorem except_map_error {α β : Type} (f : α → β) (e : PyError) :
    Except.map f (Except.error e : Except PyError α) =
      (.error e : Except PyError β) := rfl

/-- Decrypting the entries produced by a successful entry-by-entry
encryption recovers exactly the original containers, in order. -/
theorem load_mapM (mpw : PyStr) (all : List (Int × Container))
    (enc : List (PyStr × EncEntry))
    (henc : exceptMapM (fun p => (Container.encrypt p.2 mpw).map
      (fun en => (intToPyStr p.1, en))) all = .ok enc)
    (hwf : ∀ p ∈ all, EntryWf p) :
    exceptMapM (fun q => Container.from_data mpw q.1 q.2.ciphertext q.2.mac
      q.2.key.salt q.2.key.iv) enc = .ok (all.map Prod.snd) := by
  induction all generalizing enc with
  | nil =>
    unfold exceptMapM at henc
    cases henc
    rfl
  | cons p t ih =>
    unfold exceptMapM at henc
    match hE : Container.encrypt p.2 mpw with
    | .error e =>
      rw [hE, except_map_error] at henc
      dsimp only at henc
      cases henc
    | .ok out =>
      rw [hE, except_map_ok] at henc
      dsimp only at henc
      match hT : exceptMapM (fun p => (Container.encrypt p.2 mpw).map
          (fun en => (intToPyStr p.1, en))) t with
      | .error e =>
        rw [hT, except_map_error] at henc
        cases henc
      | .ok ys =>
        rw [hT, except_map_ok] at henc
        rw [Except.ok.injEq] at henc
        subst henc
        obtain ⟨hp1, hsalt, hiv, hwfn, hns⟩ := hwf p (List.mem_cons_self _ _)
        unfold exceptMapM
        dsimp only
        rw [hp1]
        rw [container_roundTrip p.2 mpw out hsalt hiv hwfn hns hE]
        dsimp only
        rw [ih ys hT (fun q hq => hwf q (List.mem_cons_of_mem _ hq))]
        rfl

/-- The recomputed vault MAC depends only on the stored per-container MAC
values (not on the ciphertexts), ordered by sorting the id strings. -/
theorem sortByKey_macs_congr (l1 l2 : List (PyStr × EncEntry))
    (h : l1.map (fun p => (p.1, p.2.mac)) = l2.map (fun p => (p.1, p.2.mac))) :
    (sortByKey l1).map (fun p => p.2.mac) = (sortByKey l2).map (fun p => p.2.mac) := by
  have key : ∀ l : List (PyStr × EncEntry),
      (sortByKey l).map (fun p => p.2.mac) =
        (List.insertionSort (fun p q : PyStr × MacVal => pyStrLt p.1 q.1 = true)
          (l.map (fun p => (p.1, p.2.mac)))).map (fun q => q.2) := by
    intro l
    unfold sortByKey
    rw [← map_insertionSort (fun p : PyStr × EncEntry => (p.1, p.2.mac))
      (fun p q : PyStr × EncEntry => pyStrLt p.1 q.1 = true)
      (fun p q : PyStr × MacVal => pyStrLt p.1 q.1 = true)
      (fun a b => Iff.rfl) l]
    rw [List.map_map]
    rfl
  rw [key l1, key l2, h]

/-- A vault document written by `Vault.encrypt` holds one MAC value in its
vault MAC per container entry. -/
theorem encrypt_doc_mac_length (v : Vault) (doc : VaultDoc)
    (h : Vault.encrypt v = .ok doc) :
    doc.mac.macs.length = doc.containers.length := by
  obtain ⟨_, _, _, hdm⟩ := vault_encrypt_inv v doc h
  rw [hdm]
  simp only [vaultHmac, List.length_map, sortByKey]
  exact List.length_insertionSort _ _

/-- `Vault.encrypt` succeeds when the master password is UTF-8 encodable
and every container's data payload is UTF-8 decodable. -/
theorem vault_encrypt_total (v : Vault) (bs : List Nat)
    (hpw : utf8Enc v.master_password = some bs)
    (hdata : ∀ p ∈ v.containers ++ v.hidden_containers,
      ∃ ds, utf8Dec p.2.data = some ds) :
    ∃ doc, Vault.encrypt v = .ok doc := by
  obtain ⟨enc, henc⟩ := exceptMapM_ok_of_forall_ex
    (fun p => (Container.encrypt p.2 v.master_password).map
      (fun en => (intToPyStr p.1, en)))
    (v.containers ++ v.hidden_containers)
    (by
      intro p hp
      obtain ⟨ds, hds⟩ := hdata p hp
      obtain ⟨out, hout, _⟩ := Container.encrypt_ok p.2 v.master_password ds bs hds hpw
      refine ⟨(intToPyStr p.1, out), ?_⟩
      dsimp only
      rw [hout, except_map_ok])
  refine ⟨⟨enc, ⟨v.key.salt, v.key.iv⟩,
    vaultHmac ⟨v.master_password, v.key.salt⟩
      ((sortByKey enc).map (fun p => p.2.mac))⟩, ?_⟩
  unfold Vault.encrypt
  dsimp only
  rw [henc]
  dsimp only
  have hk : generate_aes_key v.master_password v.key.salt =
      .ok ⟨v.master_password, v.key.salt⟩ := by
    unfold generate_aes_key
    rw [hpw]
  rw [hk]

/-- Saving and reloading a well-formed vault under its own master password
returns the vault's contents unchanged. -/
theorem load_after_encrypt (v : Vault) (doc : VaultDoc)
    (henc : Vault.encrypt v = .ok doc)
    (hks : v.key.salt.length = 32) (hki : v.key.iv.length = 16)
    (hwf : ∀ p ∈ v.containers ++ v.hidden_containers, EntryWf p)
    (hnd : ((v.containers ++ v.hidden_containers).map Prod.fst).Nodup)
    (hpos : ∀ p ∈ v.containers, 0 ≤ p.1)
    (hneg : ∀ p ∈ v.hidden_containers, p.1 < 0) :
    Vault.load_from_file v.master_password doc =
      .ok ⟨⟨v.key.salt, v.key.iv⟩, v.containers, v.hidden_containers,
        v.master_password⟩ := by
  obtain ⟨⟨bs, hbs⟩, hdk, hdc, hdm⟩ := vault_encrypt_inv v doc henc
  have hinner : loadInner v.master_password doc =
      .ok ⟨⟨v.key.salt, v.key.iv⟩, v.containers, v.hidden_containers,
        v.master_password⟩ := by
    unfold loadInner
    rw [load_mapM v.master_password _ doc.containers hdc hwf]
    dsimp only
    have hlen : ¬ (doc.key.salt.length ≠ 32 ∨ doc.key.iv.length ≠ 16) := by
      rw [hdk]
      dsimp only
      omega
    rw [if_neg hlen]
    have hrc : loadRecomputedMac v.master_password doc = .ok doc.mac := by
      unfold loadRecomputedMac
      rw [hdk]
      dsimp only
      have hk : generate_aes_key v.master_password v.key.salt =
          .ok ⟨v.master_password, v.key.salt⟩ := by
        unfold generate_aes_key
        rw [hbs]
      rw [hk]
      dsimp only
      rw [hdm]
    rw [hrc]
    dsimp only
    rw [if_neg (fun hne => hne rfl)]
    have hmap : ((v.containers ++ v.hidden_containers).map Prod.snd).map
        (fun c => (c.id, c)) = v.containers ++ v.hidden_containers := by
      rw [List.map_map]
      have : ∀ p ∈ v.containers ++ v.hidden_containers,
          ((fun c : Container => (c.id, c)) ∘ Prod.snd) p = id p := by
        intro p hp
        obtain ⟨hp1, _⟩ := hwf p hp
        simp only [Function.comp_apply, id_eq]
        rw [← hp1]
      rw [List.map_congr_left this, List.map_id]
    rw [hmap]
    rw [dictOfPairs_nodup _ hnd]
    rw [List.filter_append, List.filter_append]
    rw [List.filter_eq_self.mpr (by intro a ha; simpa using hpos a ha)]
    rw [show List.filter (fun p => decide (0 ≤ p.1)) v.hidden_containers = []
      from List.filter_eq_nil_iff.mpr (by
        intro a ha
        have := hneg a ha
        simp only [decide_eq_true_eq]
        omega)]
    rw [show List.filter (fun p => decide (p.1 < 0)) v.containers = []
      from List.filter_eq_nil_iff.mpr (by
        intro a ha
        have := hpos a ha
        simp only [decide_eq_true_eq]
        omega)]
    rw [List.filter_eq_self.mpr (by intro a ha; simpa using hneg a ha)]
    simp only [List.append_nil, List.nil_append]
    rw [hdk]
  unfold Vault.load_from_file
  rw [hinner]

/-! ## Session operations on a vault (id allocation) -/

/-- One user-level vault operation in a session. -/
inductive SOp where
  | add (name data : PyStr)
  | remove (i : Int)

/-- One step of a session: `add_container` (threading the process-wide id
allocator and the entropy position) or `remove_container`; a failing call
leaves the vault as it was. -/
def sessionStep (e : Entropy) (s : Vault × IdGen × Nat) : SOp → Vault × IdGen × Nat
  | .add name data =>
    match Vault.add_container s.1 name data s.2.1 e s.2.2 with
    | (.ok (_, v2), g2, p2) => (v2, g2, p2)
    | (.error _, g2, p2) => (s.1, g2, p2)
  | .remove i =>
    match Vault.remove_container s.1 i with
    | .ok v2 => (v2, s.2.1, s.2.2)
    | .error _ => (s.1, s.2.1, s.2.2)

def runSession (e : Entropy) (s : Vault × IdGen × Nat) : List SOp → Vault × IdGen × Nat
  | [] => s
  | op :: ops => runSession e (sessionStep e s op) ops

/-- The allocator invariant: every id constructed so far lies below the
watermark, and no id was constructed twice. -/
def IdInv (g : IdGen) : Prop :=
  (∀ i ∈ g.constructed, i < g.next_id) ∧ g.constructed.Nodup

theorem add_container_gen (v : Vault) (name data : PyStr) (g : IdGen)
    (e : Entropy) (pos : Nat) :
    (Vault.add_container v name data g e pos).2.1 =
      ⟨max g.next_id (g.next_id + 1), g.next_id :: g.constructed⟩ := by
  unfold Vault.add_container Container.init
  match utf8Enc data with
  | none => rfl
  | some db => rfl

theorem sessionStep_inv (e : Entropy) (s : Vault × IdGen × Nat) (op : SOp)
    (h : IdInv s.2.1) : IdInv (sessionStep e s op).2.1 := by
  match op with
  | .add name data =>
    have hg : (sessionStep e s (.add name data)).2.1 =
        (Vault.add_container s.1 name data s.2.1 e s.2.2).2.1 := by
      unfold sessionStep
      dsimp only
      match hac : Vault.add_container s.1 name data s.2.1 e s.2.2 with
      | (.ok (c, v2), g2, p2) => rfl
      | (.error er, g2, p2) => rfl
    rw [hg, add_container_gen]
    unfold IdInv
    dsimp only
    obtain ⟨h1, h2⟩ := h
    constructor
    · intro i hi
      rcases List.mem_cons.1 hi with he | ht
      · subst he; omega
      · have := h1 i ht; omega
    · refine List.nodup_cons.2 ⟨?_, h2⟩
      intro hmem
      have := h1 _ hmem
      omega
  | .remove i =>
    have hg : (sessionStep e s (.remove i)).2.1 = s.2.1 := by
      unfold sessionStep
      dsimp only
      match hrc : Vault.remove_container s.1 i with
      | .ok v2 => rfl
      | .error er => rfl
    rw [hg]
    exact h

theorem runSession_inv (e : Entropy) (ops : List SOp) (s : Vault × IdGen × Nat)
    (h : IdInv s.2.1) : IdInv (runSession e s ops).2.1 := by
  induction ops generalizing s with
  | nil => exact h
  | cons op t ih =>
    unfold runSession
    exact ih (sessionStep e s op) (sessionStep_inv e s op h)

/-! ## Concrete material for witnesses and counterexamples -/

def salt0 : List Nat := List.replicate 32 0

def iv0 : List Nat := List.replicate 16 0

def pw0 : PyStr := pyOfString "pw"

/-- A container whose name is a high–low surrogate pair: representable as a
Python `str`, yet not JSON-escape round-trippable. -/
def c1cex : Container := ⟨0, [0xD800, 0xDC00], [], ⟨salt0, iv0⟩⟩

def c1cexOut : EncEntry := ((Container.encrypt c1cex pw0).toOption).get (by decide)

def c1cexDec : Container :=
  ((Container.from_data pw0 (intToPyStr c1cex.id) c1cexOut.ciphertext
    c1cexOut.mac c1cexOut.key.salt c1cexOut.key.iv).toOption).get (by decide)

def c1c : Container := ⟨1, pyOfString "A", [66], ⟨salt0, iv0⟩⟩

def c1cOut : EncEntry := ((Container.encrypt c1c pw0).toOption).get (by decide)

/-! ## The claims -/

/-- C1 (amended): for every container whose name is free of surrogate code
points (lone surrogates survive Python's `json.dumps` but are recombined by
`json.loads`, so the original claim's "any name" fails), decrypting the
output of `Container.encrypt` with the same password succeeds and returns a
container equal to the original under `Container.__eq__` (id, name, data;
key material excluded). -/
theorem c1_round_trip_eq (c : Container) (pw : PyStr) (out : EncEntry)
    (hsalt : c.key.salt.length = 32) (hiv : c.key.iv.length = 16)
    (hwf : PyWf c.name) (hns : NoSurrogates c.name)
    (henc : Container.encrypt c pw = .ok out) :
    ∃ c2, Container.from_data pw (intToPyStr c.id) out.ciphertext out.mac
      out.key.salt out.key.iv = .ok c2 ∧ containerEq c2 c = true := by
  refine ⟨_, container_roundTrip c pw out hsalt hiv hwf hns henc, ?_⟩
  simp [containerEq]

/-- C1 counterexample to the original claim: a container whose name is the
surrogate pair U+D800 U+DC00 encrypts fine, but decryption returns a
container whose name is the single code point U+10000, so `__eq__` fails. -/
theorem c1_surrogate_pair_cex :
    Container.encrypt c1cex pw0 = .ok c1cexOut ∧
    Container.from_data pw0 (intToPyStr c1cex.id) c1cexOut.ciphertext
      c1cexOut.mac c1cexOut.key.salt c1cexOut.key.iv = .ok c1cexDec ∧
    c1cexDec.name = [0x10000] ∧ c1cex.name = [0xD800, 0xDC00] ∧
    containerEq c1cexDec c1cex = false := by
  exact ⟨rfl, rfl, rfl, rfl, rfl⟩

/-- C1 witness: the amended round trip at a concrete container. -/
theorem c1_round_trip_eq_witness :
    NoSurrogates c1c.name ∧
    (∃ c2, Container.from_data pw0 (intToPyStr c1c.id) c1cOut.ciphertext
      c1cOut.mac c1cOut.key.salt c1cOut.key.iv = .ok c2 ∧
      containerEq c2 c1c = true) :=
  ⟨by decide, c1_round_trip_eq c1c pw0 c1cOut rfl rfl (by decide) (by decide) rfl⟩

def c2pw : PyStr := pyOfString "p"

def c2mac : MacVal := hmacSha256 ⟨c2pw, salt0⟩ (pyOfString "y")

/-- C2 (amended): with valid salt/iv lengths, an id string `int()` accepts
and an encodable password, a MAC mismatch stops `Container.from_data` with
the integrity error naming the id, before any AES decryption or unpadding
(the trace records neither), so no padding-specific error class can reach
the caller.  (The original claim's "for every call" fails: `Container(int(id))`
runs before the comparison, so a non-numeric id raises `ValueError` instead.) -/
theorem c2_mac_mismatch_short_circuit (pw id : PyStr) (ct : List Nat)
    (mac : MacVal) (salt iv : List Nat) (cid : Int) (bs : List Nat)
    (hs : salt.length = 32) (hi : iv.length = 16)
    (hid : pyStrToInt id = some cid) (hpw : utf8Enc pw = some bs)
    (hmm : hmacSha256 ⟨pw, salt⟩ (id ++ ct) ≠ mac) :
    (Container.from_dataT pw id ct mac salt iv).1 =
      .error (.loadContainerError (containerMacMsg id)) ∧
    CEvent.aesDecrypted ∉ (Container.from_dataT pw id ct mac salt iv).2 ∧
    CEvent.unpadded ∉ (Container.from_dataT pw id ct mac salt iv).2 := by
  rw [from_data_macFail pw id ct mac salt iv cid bs hs hi hid hpw hmm]
  refine ⟨rfl, ?_, ?_⟩ <;> (dsimp only; decide)

/-- C2 counterexample to the original claim: a non-numeric id with a
mismatched MAC raises `ValueError` from `int(id)` (before key derivation),
not the promised `LoadContainerError`. -/
theorem c2_nonnumeric_id_cex :
    hmacSha256 ⟨c2pw, salt0⟩ (pyOfString "x" ++ []) ≠ c2mac ∧
    Container.from_dataT c2pw (pyOfString "x") [] c2mac salt0 iv0 =
      (.error (.valueError (pyOfString "invalid literal for int() with base 10")),
        []) ∧
    ∀ m, (Container.from_dataT c2pw (pyOfString "x") [] c2mac salt0 iv0).1 ≠
      .error (.loadContainerError m) := by
  refine ⟨by decide, rfl, ?_⟩
  intro m h
  rw [show (Container.from_dataT c2pw (pyOfString "x") [] c2mac salt0 iv0).1 =
    .error (.valueError (pyOfString "invalid literal for int() with base 10"))
    from rfl] at h
  have h2 := Except.error.inj h
  cases h2

def c2wid : PyStr := pyOfString "5"

/-- C2 witness: the short circuit at a concrete mismatched call. -/
theorem c2_mac_mismatch_witness :
    pyStrToInt c2wid = some 5 ∧
    (Container.from_dataT c2pw c2wid [] c2mac salt0 iv0).1 =
      .error (.loadContainerError (containerMacMsg c2wid)) :=
  ⟨by decide,
    (c2_mac_mismatch_short_circuit c2pw c2wid [] c2mac salt0 iv0 5
      (pyOfString "p") rfl rfl (by decide) rfl (by decide)).1⟩

/-- C3 (amended): flipping any single bit of a stored container's
ciphertext or salt, or replacing its MAC by any other value, makes
`Container.from_data` fail with the integrity error naming the id. (The
original claim also covered the iv; that part fails — see the
counterexample — because the MAC covers `str(id) + ciphertext` only.) -/
theorem c3_bit_flip_detected (c : Container) (pw : PyStr) (out : EncEntry)
    (ict isalt j1 j2 : Nat) (mac2 : MacVal)
    (hsalt : c.key.salt.length = 32) (hiv : c.key.iv.length = 16)
    (henc : Container.encrypt c pw = .ok out)
    (hict : ict < out.ciphertext.length) (hisalt : isalt < 32)
    (hmac : mac2 ≠ out.mac) :
    Container.from_data pw (intToPyStr c.id) (flipBit out.ciphertext ict j1)
      out.mac out.key.salt out.key.iv =
      .error (.loadContainerError (containerMacMsg (intToPyStr c.id))) ∧
    Container.from_data pw (intToPyStr c.id) out.ciphertext out.mac
      (flipBit out.key.salt isalt j2) out.key.iv =
      .error (.loadContainerError (containerMacMsg (intToPyStr c.id))) ∧
    Container.from_data pw (intToPyStr c.id) out.ciphertext mac2
      out.key.salt out.key.iv =
      .error (.loadContainerError (containerMacMsg (intToPyStr c.id))) := by
  obtain ⟨⟨bs, hbs⟩, hos, hoi, homac⟩ := encrypt_ok_inv c pw out henc
  have hoslen : out.key.salt.length = 32 := by rw [hos]; exact hsalt
  have hoilen : out.key.iv.length = 16 := by rw [hoi]; exact hiv
  refine ⟨?_, ?_, ?_⟩
  · have hmm : hmacSha256 ⟨pw, out.key.salt⟩
        (intToPyStr c.id ++ flipBit out.ciphertext ict j1) ≠ out.mac := by
      intro h
      rw [homac, hos] at h
      simp only [hmacSha256, MacVal.mk.injEq] at h
      have h2 := List.append_cancel_left h.2
      exact flipBit_ne out.ciphertext ict j1 hict h2
    have h := from_data_macFail pw (intToPyStr c.id) (flipBit out.ciphertext ict j1)
      out.mac out.key.salt out.key.iv c.id bs hoslen hoilen
      (pyStrToInt_intToPyStr c.id) hbs hmm
    unfold Container.from_data
    rw [h]
  · have hmm : hmacSha256 ⟨pw, flipBit out.key.salt isalt j2⟩
        (intToPyStr c.id ++ out.ciphertext) ≠ out.mac := by
      intro h
      rw [homac] at h
      simp only [hmacSha256, MacVal.mk.injEq, AESKey.mk.injEq] at h
      have h2 : flipBit out.key.salt isalt j2 = out.key.salt :=
        h.1.2.trans hos.symm
      exact flipBit_ne out.key.salt isalt j2 (by omega) h2
    have h := from_data_macFail pw (intToPyStr c.id) out.ciphertext
      out.mac (flipBit out.key.salt isalt j2) out.key.iv c.id bs
      (by rw [flipBit_length]; exact hoslen) hoilen
      (pyStrToInt_intToPyStr c.id) hbs hmm
    unfold Container.from_data
    rw [h]
  · have hmm : hmacSha256 ⟨pw, out.key.salt⟩
        (intToPyStr c.id ++ out.ciphertext) ≠ mac2 := by
      rw [hos, ← homac]
      exact fun h => hmac h.symm
    have h := from_data_macFail pw (intToPyStr c.id) out.ciphertext
      mac2 out.key.salt out.key.iv c.id bs hoslen hoilen
      (pyStrToInt_intToPyStr c.id) hbs hmm
    unfold Container.from_data
    rw [h]

def c3cex : Container :=
  ⟨0, pyOfString "Test Container", pyOfString "Test Data",
    ⟨List.replicate 32 1, List.replicate 16 2⟩⟩

def c3cexOut : EncEntry := ((Container.encrypt c3cex pw0).toOption).get (by decide)

def c3cexDec : Container :=
  ((Container.from_data pw0 (intToPyStr c3cex.id) c3cexOut.ciphertext
    c3cexOut.mac c3cexOut.key.salt
    (flipBit c3cexOut.key.iv 10 0)).toOption).get (by decide)

/-- C3 counterexample to the original claim: flipping bit 0 of byte 10 of
the stored iv is NOT detected — decryption silently succeeds and returns a
container whose name starts with 'U' instead of 'T'. -/
theorem c3_iv_flip_cex :
    flipBit c3cexOut.key.iv 10 0 ≠ c3cexOut.key.iv ∧
    Container.from_data pw0 (intToPyStr c3cex.id) c3cexOut.ciphertext
      c3cexOut.mac c3cexOut.key.salt (flipBit c3cexOut.key.iv 10 0) =
      .ok c3cexDec ∧
    c3cexDec.name = pyOfString "Uest Container" ∧
    containerEq c3cexDec c3cex = false := by
  exact ⟨by decide, rfl, rfl, rfl⟩

def c3c : Container := ⟨7, pyOfString "N", [65], ⟨salt0, iv0⟩⟩

def c3cOut : EncEntry := ((Container.encrypt c3c pw0).toOption).get (by decide)

def c3mac2 : MacVal := hmacSha256 ⟨pw0, salt0⟩ []

/-- C3 witness: detection of a concrete ciphertext flip, salt flip and MAC
replacement. -/
theorem c3_bit_flip_witness :
    0 < c3cOut.ciphertext.length ∧
    (Container.from_data pw0 (intToPyStr c3c.id) (flipBit c3cOut.ciphertext 0 0)
      c3cOut.mac c3cOut.key.salt c3cOut.key.iv =
      .error (.loadContainerError (containerMacMsg (intToPyStr c3c.id))) ∧
    Container.from_data pw0 (intToPyStr c3c.id) c3cOut.ciphertext c3cOut.mac
      (flipBit c3cOut.key.salt 3 1) c3cOut.key.iv =
      .error (.loadContainerError (containerMacMsg (intToPyStr c3c.id))) ∧
    Container.from_data pw0 (intToPyStr c3c.id) c3cOut.ciphertext c3mac2
      c3cOut.key.salt c3cOut.key.iv =
      .error (.loadContainerError (containerMacMsg (intToPyStr c3c.id)))) :=
  ⟨by decide, c3_bit_flip_detected c3c pw0 c3cOut 0 3 0 1 c3mac2 rfl rfl rfl
    (by decide) (by decide) (by decide)⟩

/-- C4: changing the set of entries of a saved vault document (adding an
entry under a fresh id, or removing one — anything that changes the entry
count) without updating the vault MAC makes `Vault.load_from_file` fail
with a `LoadVaultError`, whatever the entries' own MACs are: the recomputed
vault MAC holds one per-container MAC per entry, so its shape alone can no
longer match the stored one. -/
theorem c4_membership_change_fails (v : Vault) (doc : VaultDoc) (mpw : PyStr)
    (cs2 : List (PyStr × EncEntry))
    (henc : Vault.encrypt v = .ok doc)
    (hlen : cs2.length ≠ doc.containers.length) :
    ∃ m, Vault.load_from_file mpw ⟨cs2, doc.key, doc.mac⟩ =
      .error (.loadVaultError m) := by
  rcases load_from_file_error_class mpw ⟨cs2, doc.key, doc.mac⟩ with ⟨w, hw⟩ | ⟨m, hm⟩
  · exfalso
    have hmac := load_ok_mac mpw _ w hw
    have hlenM := loadRecomputedMac_length mpw _ _ hmac
    dsimp only at hlenM
    have h2 := encrypt_doc_mac_length v doc henc
    omega
  · exact ⟨m, hm⟩

def c4c : Container := ⟨0, pyOfString "A", [66], ⟨salt0, iv0⟩⟩

def c4v : Vault := ⟨⟨salt0, iv0⟩, [(0, c4c)], [], pw0⟩

def c4doc : VaultDoc := ((Vault.encrypt c4v).toOption).get (by decide)

/-- C4 witness: removing the sole entry of a concretely saved vault
document breaks the load. -/
theorem c4_membership_witness :
    ([] : List (PyStr × EncEntry)).length ≠ c4doc.containers.length ∧
    (∃ m, Vault.load_from_file pw0 ⟨[], c4doc.key, c4doc.mac⟩ =
      .error (.loadVaultError m)) :=
  ⟨by decide, c4_membership_change_fails c4v c4doc pw0 [] rfl (by decide)⟩

/-- C5: the vault MAC written by `Vault.encrypt` is the HMAC, keyed with
the vault key, over the per-container MACs ordered by sorting the id
strings lexicographically (so "10" sorts before "2"); and
`Vault.load_from_file` recomputes the vault MAC from the MAC values stored
in the document — a document with the same (id, mac) pairs but arbitrary
ciphertexts recomputes to the very same stored vault MAC, which is what
the comparison then accepts. -/
theorem c5_vault_mac_formula (v : Vault) (doc doc2 : VaultDoc) (bs : List Nat)
    (henc : Vault.encrypt v = .ok doc)
    (hpw : utf8Enc v.master_password = some bs)
    (hsame : doc2.containers.map (fun p => (p.1, p.2.mac)) =
      doc.containers.map (fun p => (p.1, p.2.mac)))
    (hkey : doc2.key = doc.key) :
    doc.mac = vaultHmac ⟨v.master_password, v.key.salt⟩
      ((sortByKey doc.containers).map (fun p => p.2.mac)) ∧
    loadRecomputedMac v.master_password doc2 = .ok doc.mac ∧
    pyStrLt (pyOfString "10") (pyOfString "2") = true := by
  obtain ⟨_, hdk, _, hdm⟩ := vault_encrypt_inv v doc henc
  refine ⟨hdm, ?_, by decide⟩
  unfold loadRecomputedMac
  rw [hkey, hdk]
  dsimp only
  rw [show generate_aes_key v.master_password v.key.salt =
    .ok ⟨v.master_password, v.key.salt⟩ from by unfold generate_aes_key; rw [hpw]]
  dsimp only
  rw [hdm]
  rw [sortByKey_macs_congr doc2.containers doc.containers hsame]

def c5a : Container := ⟨2, pyOfString "A", [65], ⟨salt0, iv0⟩⟩

def c5b : Container := ⟨10, pyOfString "B", [66], ⟨salt0, iv0⟩⟩

def c5v : Vault := ⟨⟨salt0, iv0⟩, [(2, c5a), (10, c5b)], [], pw0⟩

def c5doc : VaultDoc := ((Vault.encrypt c5v).toOption).get (by decide)

/-- C5 witness: the MAC formula and recomputation at a concrete vault whose
ids 2 and 10 exercise the string (not numeric) ordering. -/
theorem c5_vault_mac_witness :
    utf8Enc c5v.master_password = some pw0 ∧
    (c5doc.mac = vaultHmac ⟨c5v.master_password, c5v.key.salt⟩
      ((sortByKey c5doc.containers).map (fun p => p.2.mac)) ∧
    loadRecomputedMac c5v.master_password c5doc = .ok c5doc.mac ∧
    pyStrLt (pyOfString "10") (pyOfString "2") = true) :=
  ⟨rfl, c5_vault_mac_formula c5v c5doc c5doc pw0 rfl rfl rfl rfl⟩

def loadGenericMsg : PyStr := pyOfString
  "Could not load vault: Password may be incorrect or the file may have been tampered with."

/-- C6 (amended): during a full-vault load, a container whose own MAC fails
to verify does abort the whole load, but its `LoadContainerError` is
swallowed by the catch-all and the caller sees the generic
`LoadVaultError` instead (the original claim's "propagated to the caller,
not replaced" fails). -/
theorem c6_container_error_swallowed (mpw : PyStr) (doc : VaultDoc)
    (l1 l2 : List (PyStr × EncEntry)) (p : PyStr × EncEntry) (m : PyStr)
    (hsplit : doc.containers = l1 ++ p :: l2)
    (hok : ∀ q ∈ l1, ∃ c, Container.from_data mpw q.1 q.2.ciphertext
      q.2.mac q.2.key.salt q.2.key.iv = .ok c)
    (hfail : Container.from_data mpw p.1 p.2.ciphertext p.2.mac
      p.2.key.salt p.2.key.iv = .error (.loadContainerError m)) :
    Vault.load_from_file mpw doc = .error (.loadVaultError loadGenericMsg) := by
  have hmapm : exceptMapM (fun q => Container.from_data mpw q.1 q.2.ciphertext
      q.2.mac q.2.key.salt q.2.key.iv) doc.containers =
      .error (.loadContainerError m) := by
    rw [hsplit]
    exact exceptMapM_append_error _ l1 p l2 _ hok hfail
  have hinner : loadInner mpw doc = .error (.loadContainerError m) := by
    unfold loadInner
    rw [hmapm]
  unfold Vault.load_from_file
  rw [hinner]
  rfl

def c6entry : EncEntry :=
  ⟨[], hmacSha256 ⟨pw0, salt0⟩ (pyOfString "bad"), ⟨salt0, iv0⟩⟩

def c6doc : VaultDoc :=
  ⟨[(pyOfString "1", c6entry)], ⟨salt0, iv0⟩, vaultHmac ⟨pw0, salt0⟩ []⟩

/-- C6 counterexample to the original claim: the sole entry's MAC check
fails with the integrity error naming id 1, yet the caller of the
full-vault load sees only the generic `LoadVaultError`. -/
theorem c6_generic_error_cex :
    Container.from_data pw0 (pyOfString "1") c6entry.ciphertext c6entry.mac
      c6entry.key.salt c6entry.key.iv =
      .error (.loadContainerError (containerMacMsg (pyOfString "1"))) ∧
    Vault.load_from_file pw0 c6doc = .error (.loadVaultError loadGenericMsg) ∧
    ∀ m, Vault.load_from_file pw0 c6doc ≠ .error (.loadContainerError m) := by
  refine ⟨rfl, rfl, ?_⟩
  intro m h
  rw [show Vault.load_from_file pw0 c6doc =
    .error (.loadVaultError loadGenericMsg) from rfl] at h
  have h2 := Except.error.inj h
  cases h2

/-- C6 witness: the swallowing theorem at the concrete document. -/
theorem c6_swallowed_witness :
    c6doc.containers = [] ++ (pyOfString "1", c6entry) :: [] ∧
    Vault.load_from_file pw0 c6doc = .error (.loadVaultError loadGenericMsg) :=
  ⟨rfl, c6_container_error_swallowed pw0 c6doc [] []
    (pyOfString "1", c6entry) (containerMacMsg (pyOfString "1")) rfl
    (fun q hq => absurd hq (List.not_mem_nil q)) rfl⟩

theorem regenerate_keys_spec (v : Vault) (e : Entropy) (pos : Nat) :
    (Vault.regenerate_keys v e pos).1.master_password = v.master_password ∧
    (Vault.regenerate_keys v e pos).1.key =
      ⟨readBytes e pos 32, readBytes e (pos + 32) 16⟩ ∧
    (Vault.regenerate_keys v e pos).1.containers =
      (freshKeys e v.containers (pos + 48)).1 ∧
    (Vault.regenerate_keys v e pos).1.hidden_containers =
      (freshKeys e v.hidden_containers
        (freshKeys e v.containers (pos + 48)).2).1 := by
  unfold Vault.regenerate_keys
  rcases hc : freshKeys e v.containers (pos + 48) with ⟨cs, p2⟩
  rcases hh : freshKeys e v.hidden_containers p2 with ⟨hs, p3⟩
  simp only [SymmetricKey.fresh, hc, hh]
  exact ⟨trivial, trivial, trivial, trivial⟩

/-- C7: `set_master_password` replaces the master password, gives the vault
a key read fresh from the entropy stream, preserves every container's id,
name and data while giving each a key read fresh from the stream; saving
then reloading with the new password succeeds and returns the same
containers, while loading with the old password fails with a
`LoadVaultError`. -/
theorem c7_password_rotation (v : Vault) (old new2 : PyStr) (e : Entropy)
    (pos : Nat) (bs : List Nat) (v2 : Vault) (pos2 : Nat)
    (hv2 : Vault.set_master_password v new2 e pos = (v2, pos2))
    (hpw : utf8Enc new2 = some bs)
    (hold : old ≠ new2)
    (hwk : ∀ p ∈ v.containers ++ v.hidden_containers, p.1 = p.2.id ∧
      PyWf p.2.name ∧ NoSurrogates p.2.name ∧ ∃ ds, utf8Dec p.2.data = some ds)
    (hnd : ((v.containers ++ v.hidden_containers).map Prod.fst).Nodup)
    (hpos : ∀ p ∈ v.containers, 0 ≤ p.1)
    (hneg : ∀ p ∈ v.hidden_containers, p.1 < 0) :
    v2.master_password = new2 ∧
    v2.key = ⟨readBytes e pos 32, readBytes e (pos + 32) 16⟩ ∧
    v2.containers.map cinfo = v.containers.map cinfo ∧
    v2.hidden_containers.map cinfo = v.hidden_containers.map cinfo ∧
    (∀ p ∈ v2.containers ++ v2.hidden_containers,
      ∃ q, pos ≤ q ∧ p.2.key = ⟨readBytes e q 32, readBytes e (q + 32) 16⟩) ∧
    ∃ doc, Vault.encrypt v2 = .ok doc ∧
      Vault.load_from_file new2 doc =
        .ok ⟨⟨v2.key.salt, v2.key.iv⟩, v2.containers, v2.hidden_containers,
          new2⟩ ∧
      ∃ m, Vault.load_from_file old doc = .error (.loadVaultError m) := by
  obtain ⟨hm, hk, hcs, hhs⟩ :=
    regenerate_keys_spec ⟨v.key, v.containers, v.hidden_containers, new2⟩ e pos
  have hv2a : (Vault.regenerate_keys
      ⟨v.key, v.containers, v.hidden_containers, new2⟩ e pos).1 = v2 := by
    have := congrArg Prod.fst hv2
    exact this
  dsimp only at hm hcs hhs
  rw [hv2a] at hm hk hcs hhs
  obtain ⟨s11, s12, s13, s14⟩ := freshKeys_spec e v.containers (pos + 48)
  obtain ⟨s21, s22, s23, _⟩ := freshKeys_spec e v.hidden_containers
    (freshKeys e v.containers (pos + 48)).2
  rw [← hcs] at s11 s12 s13
  rw [← hhs] at s21 s22 s23
  have hkey2 : ∀ p ∈ v2.containers ++ v2.hidden_containers,
      ∃ q, pos ≤ q ∧ p.2.key = ⟨readBytes e q 32, readBytes e (q + 32) 16⟩ := by
    intro p hp
    rcases List.mem_append.1 hp with hp1 | hp1
    · obtain ⟨q, hq1, hq2⟩ := s12 p hp1
      exact ⟨q, by omega, hq2⟩
    · obtain ⟨q, hq1, hq2⟩ := s22 p hp1
      have := s14
      exact ⟨q, by omega, hq2⟩
  have htrans : ∀ p ∈ v2.containers ++ v2.hidden_containers,
      EntryWf p ∧ ∃ ds, utf8Dec p.2.data = some ds := by
    intro p hp
    have hinfo : ∃ p0 ∈ v.containers ++ v.hidden_containers, p.1 = p0.1 ∧
        p.2.id = p0.2.id ∧ p.2.name = p0.2.name ∧ p.2.data = p0.2.data := by
      rcases List.mem_append.1 hp with hp1 | hp1
      · obtain ⟨p0, hp0, he⟩ := s13 p hp1
        exact ⟨p0, List.mem_append_left _ hp0, he⟩
      · obtain ⟨p0, hp0, he⟩ := s23 p hp1
        exact ⟨p0, List.mem_append_right _ hp0, he⟩
    obtain ⟨p0, hp0, he1, he2, he3, he4⟩ := hinfo
    obtain ⟨hw1, hw2, hw3, hw4⟩ := hwk p0 hp0
    obtain ⟨q, _, hq2⟩ := hkey2 p hp
    refine ⟨⟨?_, ?_, ?_, ?_, ?_⟩, ?_⟩
    · rw [he1, he2]; exact hw1
    · rw [hq2]; exact readBytes_length e q 32
    · rw [hq2]; exact readBytes_length e (q + 32) 16
    · rw [he3]; exact hw2
    · rw [he3]; exact hw3
    · rw [he4]; exact hw4
  have hfst : (v2.containers ++ v2.hidden_containers).map Prod.fst =
      (v.containers ++ v.hidden_containers).map Prod.fst := by
    rw [List.map_append, List.map_append,
      cinfo_map_fst v2.containers v.containers s11,
      cinfo_map_fst v2.hidden_containers v.hidden_containers s21]
  have hnd2 : ((v2.containers ++ v2.hidden_containers).map Prod.fst).Nodup := by
    rw [hfst]; exact hnd
  have hpos2 : ∀ p ∈ v2.containers, 0 ≤ p.1 := by
    intro p hp
    obtain ⟨p0, hp0, he1, _⟩ := s13 p hp
    rw [he1]; exact hpos p0 hp0
  have hneg2 : ∀ p ∈ v2.hidden_containers, p.1 < 0 := by
    intro p hp
    obtain ⟨p0, hp0, he1, _⟩ := s23 p hp
    rw [he1]; exact hneg p0 hp0
  have hpw2 : utf8Enc v2.master_password = some bs := by rw [hm]; exact hpw
  obtain ⟨doc, hdoc⟩ := vault_encrypt_total v2 bs hpw2
    (fun p hp => (htrans p hp).2)
  refine ⟨hm, hk, s11, s21, hkey2, doc, hdoc, ?_, ?_⟩
  · have hload := load_after_encrypt v2 doc hdoc
      (by rw [hk]; exact readBytes_length e pos 32)
      (by rw [hk]; exact readBytes_length e (pos + 32) 16)
      (fun p hp => (htrans p hp).1) hnd2 hpos2 hneg2
    rw [hm] at hload
    exact hload
  · exact load_wrong_password v2 doc old hdoc (by rw [hm]; exact hold)

def e7 : Entropy := fun _ => 7

def c7va : Container := ⟨0, pyOfString "A", [66], ⟨salt0, iv0⟩⟩

def c7vh : Container := ⟨-1, pyOfString "H", [67], ⟨salt0, iv0⟩⟩

def c7v : Vault := ⟨⟨salt0, iv0⟩, [(0, c7va)], [(-1, c7vh)], pyOfString "a"⟩

def c7v2 : Vault := (Vault.set_master_password c7v (pyOfString "b") e7 0).1

def c7p2 : Nat := (Vault.set_master_password c7v (pyOfString "b") e7 0).2

/-- C7 witness: rotation of a concrete two-container vault from password
"a" to "b". -/
theorem c7_password_rotation_witness :
    (pyOfString "a" : PyStr) ≠ pyOfString "b" ∧
    (c7v2.master_password = pyOfString "b" ∧
     c7v2.key = ⟨readBytes e7 0 32, readBytes e7 (0 + 32) 16⟩ ∧
     c7v2.containers.map cinfo = c7v.containers.map cinfo ∧
     c7v2.hidden_containers.map cinfo = c7v.hidden_containers.map cinfo ∧
     (∀ p ∈ c7v2.containers ++ c7v2.hidden_containers,
       ∃ q, 0 ≤ q ∧ p.2.key = ⟨readBytes e7 q 32, readBytes e7 (q + 32) 16⟩) ∧
     ∃ doc, Vault.encrypt c7v2 = .ok doc ∧
       Vault.load_from_file (pyOfString "b") doc =
         .ok ⟨⟨c7v2.key.salt, c7v2.key.iv⟩, c7v2.containers,
           c7v2.hidden_containers, pyOfString "b"⟩ ∧
       ∃ m, Vault.load_from_file (pyOfString "a") doc =
         .error (.loadVaultError m)) :=
  ⟨by decide,
    c7_password_rotation c7v (pyOfString "a") (pyOfString "b") e7 0
      (pyOfString "b") c7v2 c7p2 rfl rfl (by decide)
      (by
        intro p hp
        simp only [c7v, List.mem_append, List.mem_singleton] at hp
        rcases hp with rfl | rfl
        · exact ⟨rfl, by decide, by decide, [66], rfl⟩
        · exact ⟨rfl, by decide, by decide, [67], rfl⟩)
      (by decide) (by decide) (by decide)⟩

/-- C8 (amended): along any session of `add_container` / `remove_container`
calls, the automatically allocated ids stay below the watermark and no id
is ever constructed twice — `add_container` never returns a duplicate id.
(The original claim's "unique among all containers ever constructed" fails
for explicit-id construction, which `Container.from_data` performs on
every load — see the counterexample.) -/
theorem c8_session_ids_unique (e : Entropy) (ops : List SOp) (v : Vault)
    (g : IdGen) (pos : Nat)
    (hinv : ∀ i ∈ g.constructed, i < g.next_id) (hnd : g.constructed.Nodup) :
    (∀ i ∈ (runSession e (v, g, pos) ops).2.1.constructed,
      i < (runSession e (v, g, pos) ops).2.1.next_id) ∧
    (runSession e (v, g, pos) ops).2.1.constructed.Nodup :=
  runSession_inv e ops (v, g, pos) ⟨hinv, hnd⟩

/-- C8 counterexample to the original claim: constructing `Container(5)`
twice (as `Container.from_data` does for stored ids) yields two containers
with the same id, the second one below the watermark the first one set. -/
theorem c8_explicit_id_cex :
    (Container.init (some 5) ⟨0, []⟩).1 = 5 ∧
    5 < ((Container.init (some 5) ⟨0, []⟩).2).next_id ∧
    (Container.init (some 5) ((Container.init (some 5) ⟨0, []⟩).2)).1 = 5 ∧
    ¬ ((Container.init (some 5)
      ((Container.init (some 5) ⟨0, []⟩).2)).2).constructed.Nodup := by
  refine ⟨rfl, by decide, rfl, by decide⟩

def e8 : Entropy := fun _ => 0

def v8 : Vault := ⟨⟨salt0, iv0⟩, [], [], pw0⟩

def ops8 : List SOp :=
  [.add (pyOfString "A") [65], .remove 0, .add (pyOfString "B") [66]]

/-- C8 witness: a concrete add/remove/add session constructs no duplicate
id. -/
theorem c8_session_witness :
    ((⟨0, []⟩ : IdGen)).constructed.Nodup ∧
    (runSession e8 (v8, ⟨0, []⟩, 0) ops8).2.1.constructed.Nodup :=
  ⟨by decide,
    (c8_session_ids_unique e8 ops8 v8 ⟨0, []⟩ 0 (by decide) (by decide)).2⟩

/-- C9 (amended): for every container whose data payload is valid UTF-8
(the serializer calls `data.decode('utf-8')`, so arbitrary bytes fail —
see the counterexample) and whose name is surrogate-free, encryption
succeeds and the round trip through decryption preserves id, name and the
data bytes exactly. -/
theorem c9_decodable_data_round_trip (c : Container) (pw : PyStr)
    (ds bs : List Nat)
    (hsalt : c.key.salt.length = 32) (hiv : c.key.iv.length = 16)
    (hwf : PyWf c.name) (hns : NoSurrogates c.name)
    (hdata : utf8Dec c.data = some ds) (hpw : utf8Enc pw = some bs) :
    ∃ out c2, Container.encrypt c pw = .ok out ∧
      Container.from_data pw (intToPyStr c.id) out.ciphertext out.mac
        out.key.salt out.key.iv = .ok c2 ∧
      c2.id = c.id ∧ c2.name = c.name ∧ c2.data = c.data := by
  obtain ⟨out, hout, _⟩ := Container.encrypt_ok c pw ds bs hdata hpw
  have h := container_roundTrip c pw out hsalt hiv hwf hns hout
  exact ⟨out, _, hout, h, rfl, rfl, rfl⟩

def c9cex : Container := ⟨0, pyOfString "A", [255], ⟨salt0, iv0⟩⟩

/-- C9 counterexample to the original claim: a data payload of the single
byte 0xFF is not valid UTF-8, so `Container.encrypt` fails outright —
"data" may NOT contain arbitrary bytes. -/
theorem c9_raw_bytes_cex :
    utf8Dec c9cex.data = none ∧
    Container.encrypt c9cex pw0 = .error .unicodeDecodeError := ⟨rfl, rfl⟩

def c9c : Container := ⟨3, pyOfString "N", [0xE2, 0x82, 0xAC], ⟨salt0, iv0⟩⟩

/-- C9 witness: the round trip for a concrete multi-byte UTF-8 payload. -/
theorem c9_round_trip_witness :
    utf8Dec c9c.data = some [0x20AC] ∧
    (∃ out c2, Container.encrypt c9c pw0 = .ok out ∧
      Container.from_data pw0 (intToPyStr c9c.id) out.ciphertext out.mac
        out.key.salt out.key.iv = .ok c2 ∧
      c2.id = c9c.id ∧ c2.name = c9c.name ∧ c2.data = c9c.data) :=
  ⟨rfl, c9_decodable_data_round_trip c9c pw0 [0x20AC] pw0 rfl rfl
    (by decide) (by decide) rfl rfl⟩

def fetchErrMsg (id : PyStr) : PyStr :=
  pyOfString "There was an error fetching the container with ID " ++ id

/-- C10: `Vault.fetch_container` either succeeds or fails with the generic
`LoadVaultError` naming the requested id; it never lets a
`LoadContainerError` (or any other error class) reach its caller. -/
theorem c10_fetch_error_class (id pw : PyStr) (doc : VaultDoc) :
    ((∃ c, Vault.fetch_container id pw doc = .ok c) ∨
      Vault.fetch_container id pw doc =
        .error (.loadVaultError (fetchErrMsg id))) ∧
    ∀ m, Vault.fetch_container id pw doc ≠ .error (.loadContainerError m) := by
  unfold Vault.fetch_container
  dsimp only
  match hL : lookupStr doc.containers id with
  | none =>
    dsimp only
    constructor
    · exact Or.inr rfl
    · intro m h
      have h2 := Except.error.inj h
      cases h2
  | some en =>
    dsimp only
    match hF : Container.from_data pw id en.ciphertext en.mac
        en.key.salt en.key.iv with
    | .ok c =>
      constructor
      · exact Or.inl ⟨c, rfl⟩
      · intro m h
        cases h
    | .error er =>
      constructor
      · exact Or.inr rfl
      · intro m h
        have h2 := Except.error.inj h
        cases h2
